import Mathlib

/-!
# Verification of the credit-card statement parser core (`src/parser.py`)

This file is a shallow embedding of the pure extraction core of the
repository's `CCStatementParser`: the currency normalizer, the per-field
value extractor `_extract_by_type`, the table search `_find_in_tables`,
the block search `_find_in_blocks` (with summary-zone detection), the
global regex search `_global_search`, and the orchestrator `extract`.

Text is modelled as `List Char`.  The regular expressions of the source
are embedded as bespoke scanners that reproduce the Python `re`
semantics (leftmost match, greedy/lazy quantifiers with the backtracking
behaviour these concrete patterns exhibit, `re.I` case folding on ASCII,
`.` not matching a newline).  `\s` is modelled as the ASCII whitespace
class `[ \t\n\r\v\f]`, `\w` as `[A-Za-z0-9_]`, matching Python's
behaviour on the ASCII texts the parser manipulates.  Python floats are
modelled as exact rationals: every bound test in the source compares
decimal literals against decimal-string values, and float conversion is
monotone, so the embedding's comparisons agree with the source on all
accepted/rejected candidates.  Statement dates are encoded as the
natural number `y*10000 + m*100 + d`, which orders them exactly as
`datetime` orders calendar dates.

Scanners that advance through the text past variable-length matches take
an explicit fuel argument (always instantiated with the text length);
this keeps every definition structurally recursive and kernel-evaluable.
-/

namespace CCParser

/-! ## Character utilities -/

/-- ASCII whitespace, Python's `\s` class `[ \t\n\r\x0b\x0c]`. -/
def pySpace (c : Char) : Bool :=
  c = ' ' || c = '\t' || c = '\n' || c = '\r' || c = Char.ofNat 11 || c = Char.ofNat 12

/-- Python's `\w` class `[A-Za-z0-9_]`. -/
def wordChar (c : Char) : Bool :=
  ('a' ≤ c && c ≤ 'z') || ('A' ≤ c && c ≤ 'Z') || ('0' ≤ c && c ≤ '9') || c = '_'

/-- ASCII decimal digit. -/
def digitChar (c : Char) : Bool := '0' ≤ c && c ≤ '9'

/-- ASCII lower-casing, as `str.lower` acts on the parser's texts. -/
def lowerC (c : Char) : Char :=
  if 'A' ≤ c && c ≤ 'Z' then Char.ofNat (c.toNat + 32) else c

/-- Case-insensitive character comparison (`re.I`). -/
def eqCI (a b : Char) : Bool := lowerC a = lowerC b

/-- Lower-case a text (`str.lower`). -/
def lowerStr (s : List Char) : List Char := s.map lowerC

/-- Numeric digit value of an ASCII digit. -/
def digitVal (c : Char) : ℕ := c.toNat - '0'.toNat

/-! ## The data model -/

/-- The five target fields. -/
inductive Field
  | card_last_4
  | statement_period
  | due_date
  | amount_due
  | credit_limit
deriving DecidableEq, Repr

/-- Iteration order of `FIELD_LABELS` (Python dict insertion order). -/
def fieldOrder : List Field :=
  [.card_last_4, .statement_period, .due_date, .amount_due, .credit_limit]

/-- Field name as it appears in result keys and alert strings. -/
def fieldName : Field → List Char
  | .card_last_4 => "card_last_4".data
  | .statement_period => "statement_period".data
  | .due_date => "due_date".data
  | .amount_due => "amount_due".data
  | .credit_limit => "credit_limit".data

/-- A resolved field value: the source stores either a string or a float. -/
inductive Value
  | str (s : List Char)
  | num (q : ℚ)
deriving DecidableEq, Repr

/-- A positioned text block (`{text, bbox, page}`). -/
structure Block where
  text : List Char
  x0 : ℚ
  y0 : ℚ
  x1 : ℚ
  y1 : ℚ
  page : ℕ
deriving DecidableEq, Repr

/-- A table: rows of cell strings. -/
abbrev Table := List (List (List Char))

/-- The document evidence bundle handed to the extraction core. -/
structure Document where
  tables : List Table
  blocks : List Block
  rawText : List Char
deriving Repr

/-- The result object assembled by `extract`. -/
structure ExtractionResult where
  value : Field → Option Value
  pattern : Field → Option (List Char)
  fieldsExtracted : ℕ
  confidence : List Char
  alerts : List (List Char)
  hasWarnings : Bool
  extractionMethod : List Char

/-! ## Regex scanner primitives

Each matcher consumes a prefix of the text; scanners walk the text one
position at a time (Python `re.search` / `re.findall` leftmost
semantics) with fuel equal to the text length. -/

/-- `w.isPrefixOf s` case-insensitively (a literal under `re.I`). -/
def prefixCI : List Char → List Char → Bool
  | [], _ => true
  | _ :: _, [] => false
  | a :: w, b :: s => eqCI a b && prefixCI w s

/-- Maximal run of characters in a class: `(run, rest)` (a greedy `c*`). -/
def spanP (p : Char → Bool) : List Char → List Char × List Char
  | [] => ([], [])
  | c :: rest =>
    if p c then
      let (r, t) := spanP p rest
      (c :: r, t)
    else ([], c :: rest)

/-- Greedy `\s+`: at least one whitespace character, maximal run. -/
def ws1 (s : List Char) : Option (List Char) :=
  let (r, t) := spanP pySpace s
  if r.isEmpty then none else some t

/-- Greedy `\s*`. -/
def ws0 (s : List Char) : List Char := (spanP pySpace s).2

/-- `\d{1,2}` followed by a literal separator, with the regex backtracking
(two digits preferred, one digit retried); consumes the separator. -/
def matchD12Sep (sep : Char) : List Char → Option (List Char × List Char)
  | a :: b :: c :: rest =>
    if digitChar a && digitChar b && c = sep then some ([a, b, sep], rest)
    else if digitChar a && b = sep then some ([a, sep], c :: rest)
    else none
  | [a, b] => if digitChar a && b = sep then some ([a, sep], []) else none
  | _ => none

/-- `\d{4}`: exactly four digits (more may follow the match). -/
def matchDigits4 : List Char → Option (List Char × List Char)
  | a :: b :: c :: d :: rest =>
    if digitChar a && digitChar b && digitChar c && digitChar d then
      some ([a, b, c, d], rest)
    else none
  | _ => none

/-- The date pattern `\d{1,2}/\d{1,2}/\d{4}`: `(matched text, rest)`. -/
def matchDate (cs : List Char) : Option (List Char × List Char) :=
  match matchD12Sep '/' cs with
  | none => none
  | some (d, r1) =>
    match matchD12Sep '/' r1 with
    | none => none
    | some (m, r2) =>
      match matchDigits4 r2 with
      | none => none
      | some (y, r3) => some (d ++ m ++ y, r3)

/-- `re.findall` of the date pattern: leftmost, non-overlapping. -/
def findAllDates : ℕ → List Char → List (List Char)
  | 0, _ => []
  | _ + 1, [] => []
  | fuel + 1, c :: rest =>
    match matchDate (c :: rest) with
    | some (d, r) => d :: findAllDates fuel r
    | none => findAllDates fuel rest

/-- The verbose date pattern `\w+\s+\d{1,2},\s+\d{4}`. -/
def matchVerbose (cs : List Char) : Option (List Char × List Char) :=
  let (w, r1) := spanP wordChar cs
  if w.isEmpty then none
  else
    let (s1, r2) := spanP pySpace r1
    if s1.isEmpty then none
    else
      match matchD12Sep ',' r2 with
      | none => none
      | some (dm, r3) =>
        let (s2, r4) := spanP pySpace r3
        if s2.isEmpty then none
        else
          match matchDigits4 r4 with
          | some (y, r5) => some (w ++ s1 ++ dm ++ s2 ++ y, r5)
          | none => none

/-- `\s*[-to]+\s*` between two dates (`re.I`): greedy runs, all forced. -/
def matchRangeSep (cs : List Char) : Option (List Char) :=
  let r1 := ws0 cs
  let (sep, r2) := spanP (fun c => c = '-' || c = 't' || c = 'o' || c = 'T' || c = 'O') r1
  if sep.isEmpty then none else some (ws0 r2)

/-- `(\d{1,2}/\d{1,2}/\d{4})\s*[-to]+\s*(\d{1,2}/\d{1,2}/\d{4})` at a position. -/
def matchDateRange (cs : List Char) : Option (List Char × List Char) :=
  match matchDate cs with
  | none => none
  | some (d1, r1) =>
    match matchRangeSep r1 with
    | none => none
    | some r2 =>
      match matchDate r2 with
      | none => none
      | some (d2, _) => some (d1, d2)

/-- `(\w+\s+\d{1,2},\s+\d{4})\s+to\s+(\w+\s+\d{1,2},\s+\d{4})` at a position. -/
def matchVerboseRange (cs : List Char) : Option (List Char × List Char) :=
  match matchVerbose cs with
  | none => none
  | some (v1, r1) =>
    match ws1 r1 with
    | none => none
    | some r2 =>
      if prefixCI "to".data r2 then
        match ws1 (r2.drop 2) with
        | none => none
        | some r3 =>
          match matchVerbose r3 with
          | none => none
          | some (v2, _) => some (v1, v2)
      else none

/-- Generic leftmost search: try a matcher at every position. -/
def searchFirst (m : List Char → Option α) : ℕ → List Char → Option α
  | 0, _ => none
  | _ + 1, [] => m []
  | fuel + 1, c :: rest =>
    match m (c :: rest) with
    | some x => some x
    | none => searchFirst m fuel rest

/-- The number token `([0-9,]+\.?\d*)`. -/
def matchNum (cs : List Char) : Option (List Char × List Char) :=
  let (p1, r1) := spanP (fun c => digitChar c || c = ',') cs
  if p1.isEmpty then none
  else
    match r1 with
    | '.' :: r2 =>
      let (p2, r3) := spanP digitChar r2
      some (p1 ++ '.' :: p2, r3)
    | _ => some (p1, r1)

/-- `re.findall` of the number token. -/
def findAllNums : ℕ → List Char → List (List Char)
  | 0, _ => []
  | _ + 1, [] => []
  | fuel + 1, c :: rest =>
    match matchNum (c :: rest) with
    | some (n, r) => n :: findAllNums fuel r
    | none => findAllNums fuel rest

/-- Numeric value of a digit string. -/
def digitsToNat (s : List Char) : ℕ := s.foldl (fun a c => 10 * a + digitVal c) 0

/-- `float(s.replace(',', ''))` on a `[0-9,]+\.?\d*` token, as an exact
rational; `none` models `ValueError` (no digits at all). -/
def parseNum (s : List Char) : Option ℚ :=
  let t := s.filter (fun c => c ≠ ',')
  let ip := t.takeWhile digitChar
  let rest := t.drop ip.length
  match rest with
  | [] => if ip.isEmpty then none else some (digitsToNat ip)
  | '.' :: fp =>
    if ip.isEmpty && fp.isEmpty then none
    else if fp.all digitChar then
      some (mkRat (digitsToNat ip * 10 ^ fp.length + digitsToNat fp) (10 ^ fp.length))
    else none
  | _ => none

/-! ## `_extract_by_type`: per-field candidate validation -/

/-- Python `str.strip()`. -/
def stripStr (s : List Char) : List Char :=
  ((s.dropWhile pySpace).reverse.dropWhile pySpace).reverse

/-- `re.findall(r'(\d{4})', text)`: non-overlapping four-digit groups.
The source then walks `reversed(groups)` returning the first group of
length 4 made of digits — every group qualifies, so the last group wins. -/
def findAllDigits4 : ℕ → List Char → List (List Char)
  | 0, _ => []
  | _ + 1, [] => []
  | fuel + 1, c :: rest =>
    match matchDigits4 (c :: rest) with
    | some (g, r) => g :: findAllDigits4 fuel r
    | none => findAllDigits4 fuel rest

/-- The due-date alternation `(\d{1,2}/\d{1,2}/\d{4})|(\w+\s+\d{1,2},\s+\d{4})|(immediate)`
with `re.I`: the leftmost match wins, alternatives tried in order at each
position; the third alternative yields the literal `'Immediate'`. -/
def searchDueDateAlt : ℕ → List Char → Option (List Char)
  | 0, _ => none
  | _ + 1, [] => none
  | fuel + 1, c :: rest =>
    match matchDate (c :: rest) with
    | some (d, _) => some d
    | none =>
      match matchVerbose (c :: rest) with
      | some (v, _) => some v
      | none =>
        if prefixCI "immediate".data (c :: rest) then some "Immediate".data
        else searchDueDateAlt fuel rest

/-- Scan `candidates` for the first number inside the window `(lo, hi)`
(the `for cand ... float ... min_val < amt < max_val` loop). -/
def firstNumInWindow (lo hi : ℚ) : List (List Char) → Option Value
  | [] => none
  | c :: rest =>
    match parseNum c with
    | some q => if lo < q && q < hi then some (.num q) else firstNumInWindow lo hi rest
    | none => firstNumInWindow lo hi rest

/-- `_extract_by_type`: validate one candidate string for a field. -/
def extract_by_type (f : Field) (text0 : List Char) : Option Value :=
  let text := stripStr text0
  if text.isEmpty then none
  else
    match f with
    | .card_last_4 =>
      ((findAllDigits4 text.length text).getLast?).map .str
    | .statement_period =>
      match searchFirst matchDateRange text.length text with
      | some (d1, d2) => some (.str (d1 ++ " to ".data ++ d2))
      | none =>
        match searchFirst matchVerboseRange text.length text with
        | some (d1, d2) => some (.str (d1 ++ " to ".data ++ d2))
        | none =>
          match searchFirst (fun s => (matchDate s).map Prod.fst) text.length text with
          | some d => some (.str d)
          | none =>
            match searchFirst (fun s => (matchVerbose s).map Prod.fst) text.length text with
            | some v => some (.str v)
            | none => none
    | .due_date => (searchDueDateAlt text.length text).map .str
    | .amount_due => firstNumInWindow 50 1000000 (findAllNums text.length text)
    | .credit_limit => firstNumInWindow 1000 50000000 (findAllNums text.length text)

/-! ## Label patterns (`FIELD_LABELS`), noise and zone phrases -/

/-- Try a matcher at every position of a text (a `re.search` existence test). -/
def containsAt (p : List Char → Bool) : List Char → Bool
  | [] => p []
  | c :: rest => p (c :: rest) || containsAt p rest

/-- Match a sequence of literal words joined by `\s+` at a position
(the shape of every plain label pattern; texts are pre-lowercased). -/
def matchWordsAt : List (List Char) → List Char → Bool
  | [], _ => true
  | [w], s => w.isPrefixOf s
  | w :: ws, s =>
    w.isPrefixOf s &&
      match ws1 (s.drop w.length) with
      | some r => matchWordsAt ws r
      | none => false

/-- `re.search` of a `\s+`-joined word sequence anywhere in the text. -/
def containsWords (ws : List (List Char)) (s : List Char) : Bool :=
  containsAt (matchWordsAt ws) s

/-- `card\s+(?:no|number)` at a position (lowercased text). -/
def cardNoNumberAt (s : List Char) : Bool :=
  "card".data.isPrefixOf s &&
    match ws1 (s.drop 4) with
    | some r => "no".data.isPrefixOf r || "number".data.isPrefixOf r
    | none => false

/-- `FIELD_LABELS`: each pattern paired with its literal tag text, matched
against the lowercased cell/block text. -/
def FIELD_LABELS : Field → List (List Char × (List Char → Bool))
  | .card_last_4 =>
    [("card\\s+(?:no|number)".data, containsAt cardNoNumberAt),
     ("card\\s+ending".data, containsWords ["card".data, "ending".data]),
     ("aan".data, containsAt ("aan".data.isPrefixOf ·))]
  | .statement_period =>
    [("statement\\s+period".data, containsWords ["statement".data, "period".data]),
     ("billing\\s+period".data, containsWords ["billing".data, "period".data]),
     ("statement\\s+date".data, containsWords ["statement".data, "date".data])]
  | .due_date =>
    [("payment\\s+due\\s+date".data,
        containsWords ["payment".data, "due".data, "date".data]),
     ("due\\s+date".data, containsWords ["due".data, "date".data]),
     ("pay\\s+by".data, containsWords ["pay".data, "by".data])]
  | .amount_due =>
    [("total\\s+payment\\s+due".data,
        containsWords ["total".data, "payment".data, "due".data]),
     ("total\\s+amount\\s+due".data,
        containsWords ["total".data, "amount".data, "due".data]),
     ("total\\s+dues".data, containsWords ["total".data, "dues".data]),
     ("amount\\s+due".data, containsWords ["amount".data, "due".data]),
     ("minimum\\s+amount\\s+due".data,
        containsWords ["minimum".data, "amount".data, "due".data])]
  | .credit_limit =>
    [("total\\s+credit\\s+limit".data,
        containsWords ["total".data, "credit".data, "limit".data]),
     ("credit\\s+limit".data, containsWords ["credit".data, "limit".data])]

/-- `NOISE_PATTERNS` (`re.I`): any of the noise literals occurs. -/
def noisePattern (s : List Char) : Bool :=
  let t := lowerStr s
  ["reward", "points", "3x", "6x", "bonus", "cashback", "igst", "gst",
   "convenience", "promo"].any
    (fun w => containsAt (w.data.isPrefixOf ·) t)

/-- `SUMMARY_HEADERS` searched on the lowercased block text. -/
def isSummaryHeader (s : List Char) : Bool :=
  let t := lowerStr s
  containsWords ["payment".data, "summary".data] t ||
  containsWords ["statement".data, "summary".data] t ||
  containsWords ["account".data, "summary".data] t ||
  containsWords ["credit".data, "summary".data] t

/-- `TRANSACTION_ANCHORS` searched on the lowercased block text
(`transactions?` matches whenever `transaction` occurs). -/
def isTransactionAnchor (s : List Char) : Bool :=
  let t := lowerStr s
  containsAt ("transaction".data.isPrefixOf ·) t ||
  containsWords ["domestic".data, "transactions".data] t ||
  containsWords ["your".data, "transactions".data] t

/-! ## `_find_in_tables` -/

/-- The `candidates[:3]` validation loop inside the table search. -/
def tryCands (f : Field) : List (List Char) → Option Value
  | [] => none
  | c :: rest =>
    match extract_by_type f c with
    | some v => some v
    | none => tryCands f rest

/-- Below-label candidates: the cell at `cellIdx` of each later row,
guarded by the row-length check of the source. -/
def belowCells (table : Table) (rowIdx cellIdx : ℕ) : List (List Char) :=
  (table.drop (rowIdx + 1)).filterMap
    (fun r => if cellIdx < r.length then some (r.getD cellIdx []) else none)

/-- Inner pattern loop of the table search for one cell. -/
def tablePatLoop (f : Field) (cellLower : List Char) (cands : List (List Char)) :
    List (List Char × (List Char → Bool)) → Option Value × Option (List Char)
  | [] => (none, none)
  | (tag, m) :: rest =>
    if m cellLower then
      match tryCands f (cands.take 3) with
      | some v => (some v, some ("table:".data ++ tag))
      | none => tablePatLoop f cellLower cands rest
    else tablePatLoop f cellLower cands rest

/-- Cell loop of the table search over one row. -/
def tableCellLoop (f : Field) (table : Table) (rowIdx : ℕ) (row : List (List Char)) :
    ℕ → List (List Char) → Option Value × Option (List Char)
  | _, [] => (none, none)
  | cellIdx, cell :: rest =>
    let cands := row.drop (cellIdx + 1) ++ belowCells table rowIdx cellIdx
    match tablePatLoop f (lowerStr cell) cands (FIELD_LABELS f) with
    | (some v, s) => (some v, s)
    | (none, _) => tableCellLoop f table rowIdx row (cellIdx + 1) rest

/-- Row loop of the table search over one table. -/
def tableRowLoop (f : Field) (table : Table) :
    ℕ → List (List (List Char)) → Option Value × Option (List Char)
  | _, [] => (none, none)
  | rowIdx, row :: rest =>
    match tableCellLoop f table rowIdx row 0 row with
    | (some v, s) => (some v, s)
    | (none, _) => tableRowLoop f table (rowIdx + 1) rest

/-- `_find_in_tables`: scan every table, row, cell for a label match and
validate the right-of-label then below-label candidates. -/
def find_in_tables (tables : List Table) (f : Field) :
    Option Value × Option (List Char) :=
  match tables with
  | [] => (none, none)
  | table :: rest =>
    match tableRowLoop f table 0 table with
    | (some v, s) => (some v, s)
    | (none, _) =>
      match find_in_tables rest f with
      | (v, s) => (v, s)

/-! ## `_find_in_blocks` -/

/-- Reading-order key comparison `(page, y0, x0)`, lexicographic. -/
def blockLe (a b : Block) : Bool :=
  a.page < b.page ||
    (a.page = b.page &&
      (a.y0 < b.y0 || (a.y0 = b.y0 && a.x0 ≤ b.x0)))

/-- `sorted(self.blocks, key=lambda b: (b['page'], b['bbox'][1], b['bbox'][0]))`:
Python's sort is stable, modelled by the stable `insertionSort`. -/
def sortBlocks (blocks : List Block) : List Block :=
  List.insertionSort (fun a b => blockLe a b) blocks

/-- The loop of `_find_summary_zone`: the start moves to five blocks
before each summary header; the end is the first transaction anchor. -/
def zoneLoop (idx : ℕ) (start endv : ℕ) : List Block → ℕ × ℕ
  | [] => (start, endv)
  | b :: rest =>
    let start' := if isSummaryHeader b.text then idx - 5 else start
    if isTransactionAnchor b.text then (start', idx)
    else zoneLoop (idx + 1) start' endv rest

/-- `_find_summary_zone` (`max(0, idx-5)` is truncated subtraction on ℕ). -/
def find_summary_zone (sorted' : List Block) : ℕ × ℕ :=
  zoneLoop 0 0 (sorted'.length - 1) sorted'

/-- `abs(a - b) < 100` on exact rationals, written with integer
cross-multiplication (denominators are positive, so
`|a - b| < 100 ↔ |a.num * b.den - b.num * a.den| < 100 * (a.den * b.den)`). -/
def absDiffLt100 (a b : ℚ) : Bool :=
  (a.num * b.den - b.num * a.den).natAbs < 100 * (a.den * b.den)

/-- Look-ahead loop: accept the first of up to five subsequent blocks in
the same visual column (left-x within 100 units) whose text validates. -/
def blockNearLoop (sorted' : List Block) (f : Field) (base : Block) (idx : ℕ) :
    List ℕ → Option Value
  | [] => none
  | o :: rest =>
    match sorted'.get? (idx + o) with
    | none => blockNearLoop sorted' f base idx rest
    | some nb =>
      if absDiffLt100 nb.x0 base.x0 then
        match extract_by_type f nb.text with
        | some v => some v
        | none => blockNearLoop sorted' f base idx rest
      else blockNearLoop sorted' f base idx rest

/-- Pattern loop of the block search for one block. -/
def blockPatLoop (sorted' : List Block) (f : Field) (block : Block) (idx : ℕ) :
    List (List Char × (List Char → Bool)) → Option Value × Option (List Char)
  | [] => (none, none)
  | (tag, m) :: rest =>
    if m (lowerStr block.text) then
      match extract_by_type f block.text with
      | some v => (some v, some ("block:".data ++ tag))
      | none =>
        let offsets := (List.range (min 6 (sorted'.length - idx))).drop 1
        match blockNearLoop sorted' f block idx offsets with
        | some v => (some v, some ("block-near:".data ++ tag))
        | none => blockPatLoop sorted' f block idx rest
    else blockPatLoop sorted' f block idx rest

/-- Index loop of the block search over the (extended) summary zone. -/
def blockIdxLoop (sorted' : List Block) (f : Field) :
    List ℕ → Option Value × Option (List Char)
  | [] => (none, none)
  | idx :: rest =>
    match sorted'.get? idx with
    | none => blockIdxLoop sorted' f rest
    | some block =>
      if noisePattern block.text then blockIdxLoop sorted' f rest
      else
        match blockPatLoop sorted' f block idx (FIELD_LABELS f) with
        | (some v, s) => (some v, s)
        | (none, _) => blockIdxLoop sorted' f rest

/-- `range(summary_start, min(summary_end + 10, len(sorted_blocks)))`. -/
def zoneRange (start stop : ℕ) : List ℕ :=
  (List.range stop).drop start

/-- `_find_in_blocks`: sort blocks into reading order, bound the summary
zone, skip noise blocks, and match labels with same-block or near-block
value extraction. -/
def find_in_blocks (blocks : List Block) (f : Field) :
    Option Value × Option (List Char) :=
  let sorted' := sortBlocks blocks
  let z := find_summary_zone sorted'
  blockIdxLoop sorted' f (zoneRange z.1 (min (z.2 + 10) sorted'.length))

/-! ## `_global_search` -/

/-- Mask characters of `[\*X]{4,}` under `re.I`. -/
def maskStarX (c : Char) : Bool := c = '*' || c = 'X' || c = 'x'

/-- Mask characters of `X{4,}` under `re.I`. -/
def maskX (c : Char) : Bool := c = 'X' || c = 'x'

/-- `$` without `re.M`: end of text, or just before one final newline. -/
def endAnchor : List Char → Bool
  | [] => true
  | ['\n'] => true
  | _ => false

/-- Greedy `[:\s]*`. -/
def colonWs0 (s : List Char) : List Char :=
  (spanP (fun c => c = ':' || pySpace c) s).2

/-- Lazy `.*?` before a tail matcher: the earliest tail match at or after
this position, never crossing a newline (`.` does not match `\n`). -/
def lazyScan (m : List Char → Option α) : ℕ → List Char → Option α
  | 0, _ => none
  | _ + 1, [] => m []
  | fuel + 1, c :: rest =>
    match m (c :: rest) with
    | some x => some x
    | none => if c = '\n' then none else lazyScan m fuel rest

/-- Tail `(\d{4})\s*[\*X]{4,}$` of card pattern 1. -/
def cardTail1 (s : List Char) : Option (List Char) :=
  match matchDigits4 s with
  | none => none
  | some (g, r1) =>
    let r2 := ws0 r1
    let (mk, r3) := spanP maskStarX r2
    if 4 ≤ mk.length && endAnchor r3 then some g else none

/-- Card pattern 1 `card\s+(?:no|number)[:\s]*.*?(\d{4})\s*[\*X]{4,}$` at a
position: the `no` branch is tried before `number`; after the maximal
`[:\s]*` run the lazy scan finds the earliest tail match. -/
def cardPat1At (s : List Char) : Option (List Char) :=
  if prefixCI "card".data s then
    match ws1 (s.drop 4) with
    | none => none
    | some r =>
      let tryBranch := fun (w : List Char) =>
        if prefixCI w r then
          let r2 := colonWs0 (r.drop w.length)
          lazyScan cardTail1 r2.length r2
        else none
      match tryBranch "no".data with
      | some g => some g
      | none => tryBranch "number".data
  else none

/-- Card pattern 2 `(\d{4})\s*X{4,}\s*(\d{4})` at a position; the last
four-digit group is the value. -/
def cardPat2At (s : List Char) : Option (List Char) :=
  match matchDigits4 s with
  | none => none
  | some (_, r1) =>
    let r2 := ws0 r1
    let (mk, r3) := spanP maskX r2
    if 4 ≤ mk.length then
      match matchDigits4 (ws0 r3) with
      | some (g2, _) => some g2
      | none => none
    else none

/-- Card pattern 3 `(\d{4})\s+X{4,}\s+X{4,}\s+(\d{4})` at a position. -/
def cardPat3At (s : List Char) : Option (List Char) :=
  match matchDigits4 s with
  | none => none
  | some (_, r1) =>
    match ws1 r1 with
    | none => none
    | some r2 =>
      let (mk1, r3) := spanP maskX r2
      if 4 ≤ mk1.length then
        match ws1 r3 with
        | none => none
        | some r4 =>
          let (mk2, r5) := spanP maskX r4
          if 4 ≤ mk2.length then
            match ws1 r5 with
            | none => none
            | some r6 =>
              match matchDigits4 r6 with
              | some (g2, _) => some g2
              | none => none
          else none
      else none

/-- Card patterns 4 and 5: `XXXX\s+(\d{4})` and `X{4}\s+(\d{4})` are the
same pattern under `re.I`. -/
def cardPat4At (s : List Char) : Option (List Char) :=
  match s with
  | a :: b :: c :: d :: r =>
    if maskX a && maskX b && maskX c && maskX d then
      match ws1 r with
      | none => none
      | some r2 =>
        match matchDigits4 r2 with
        | some (g, _) => some g
        | none => none
    else none
  | _ => none

/-- Tail `(\d{4})$` of card pattern 6. -/
def cardTail6 (s : List Char) : Option (List Char) :=
  match matchDigits4 s with
  | some (g, r) => if endAnchor r then some g else none
  | none => none

/-- Card pattern 6 `card\s+no[:\s]*.*?(\d{4})$` at a position. -/
def cardPat6At (s : List Char) : Option (List Char) :=
  if prefixCI "card".data s then
    match ws1 (s.drop 4) with
    | none => none
    | some r =>
      if prefixCI "no".data r then
        let r2 := colonWs0 (r.drop 2)
        lazyScan cardTail6 r2.length r2
      else none
  else none

/-- The card branch of `_global_search`: the pattern cascade in source
order; each match's qualifying groups are all four-digit strings, and the
last one is returned. -/
def globalCard (raw : List Char) : Option Value × Option (List Char) :=
  match searchFirst cardPat1At raw.length raw with
  | some g => (some (.str g), some "global".data)
  | none =>
    match searchFirst cardPat2At raw.length raw with
    | some g => (some (.str g), some "global".data)
    | none =>
      match searchFirst cardPat3At raw.length raw with
      | some g => (some (.str g), some "global".data)
      | none =>
        match searchFirst cardPat4At raw.length raw with
        | some g => (some (.str g), some "global".data)
        | none =>
          match searchFirst cardPat4At raw.length raw with
          | some g => (some (.str g), some "global".data)
          | none =>
            match searchFirst cardPat6At raw.length raw with
            | some g => (some (.str g), some "global".data)
            | none => (none, none)

/-! ### statement_period branch -/

/-- Leap year as `datetime` treats it. -/
def isLeap (y : ℕ) : Bool := y % 4 = 0 && (y % 100 ≠ 0 || y % 400 = 0)

/-- Days in a month. -/
def daysInMonth (m y : ℕ) : ℕ :=
  if m = 1 || m = 3 || m = 5 || m = 7 || m = 8 || m = 10 || m = 12 then 31
  else if m = 4 || m = 6 || m = 9 || m = 11 then 30
  else if isLeap y then 29 else 28

/-- `datetime.strptime(sd, '%d/%m/%Y')` on a `\d{1,2}/\d{1,2}/\d{4}` match:
`none` models `ValueError`; a valid date is encoded as `y*10000+m*100+d`,
which preserves the chronological order of `datetime` values. -/
def dateKey (s : List Char) : Option ℕ :=
  let dd := s.takeWhile digitChar
  let r1 := (s.drop dd.length).drop 1
  let mm := r1.takeWhile digitChar
  let yy := (r1.drop mm.length).drop 1
  let d := digitsToNat dd
  let m := digitsToNat mm
  let y := digitsToNat yy
  if 1 ≤ y && 1 ≤ m && m ≤ 12 && 1 ≤ d && d ≤ daysInMonth m y then
    some (y * 10000 + m * 100 + d)
  else none

/-- First `statement\s+period` match (`re.I`): the text after its end. -/
def spLabelAt (s : List Char) : Option (List Char) :=
  if prefixCI "statement".data s then
    match ws1 (s.drop 9) with
    | none => none
    | some r => if prefixCI "period".data r then some (r.drop 6) else none
  else none

/-- `self.raw_text[match.end() : match.end() + 1000]` after the first
`statement period` label, if the label occurs. -/
def spSnippet (raw : List Char) : Option (List Char) :=
  (searchFirst spLabelAt raw.length raw).map (List.take 1000)

/-- The `(parsed, text)` pairs of parseable snippet dates, in text order. -/
def spValidDates (raw : List Char) : List (ℕ × List Char) :=
  match spSnippet raw with
  | none => []
  | some snip =>
    (findAllDates snip.length snip).filterMap
      (fun d => (dateKey d).map (fun k => (k, d)))

/-- `valid_snippet.sort(key=lambda x: x[0])`: stable sort by parsed date. -/
def spSorted (raw : List Char) : List (ℕ × List Char) :=
  List.insertionSort (fun a b => a.1 ≤ b.1) (spValidDates raw)

/-- `statement\s+(?:period|date)\s*[:\s]*` then a date range, at a position. -/
def spRange1At (s : List Char) : Option (List Char × List Char) :=
  if prefixCI "statement".data s then
    match ws1 (s.drop 9) with
    | none => none
    | some r =>
      let tryBranch := fun (w : List Char) =>
        if prefixCI w r then matchDateRange (colonWs0 (r.drop w.length)) else none
      match tryBranch "period".data with
      | some p => some p
      | none => tryBranch "date".data
  else none

/-- `statement|billing` + `\s+(?:date|period)\s*[:\s]*` then a single date
pattern, at a position (`date` branch tried before `period`). -/
def spSingleAt (lead : List Char) (m : List Char → Option α) (s : List Char) :
    Option α :=
  if prefixCI lead s then
    match ws1 (s.drop lead.length) with
    | none => none
    | some r =>
      let tryBranch := fun (w : List Char) =>
        if prefixCI w r then m (colonWs0 (r.drop w.length)) else none
      match tryBranch "date".data with
      | some p => some p
      | none => tryBranch "period".data
  else none

/-- The statement_period branch of `_global_search`. -/
def globalStatementPeriod (raw : List Char) : Option Value × Option (List Char) :=
  match spSnippet raw with
  | some _ =>
    if 2 ≤ (spSorted raw).length then
      match spSorted raw with
      | a :: b :: _ =>
        (some (.str (a.2 ++ " to ".data ++ b.2)), some "global".data)
      | _ => (none, none)
    else globalStatementPeriodFallback raw
  | none => globalStatementPeriodFallback raw
where
  /-- The range-pattern and single-date fallbacks after the snippet strategy. -/
  globalStatementPeriodFallback (raw : List Char) :
      Option Value × Option (List Char) :=
    match searchFirst spRange1At raw.length raw with
    | some (d1, d2) => (some (.str (d1 ++ " to ".data ++ d2)), some "global".data)
    | none =>
      match searchFirst matchDateRange raw.length raw with
      | some (d1, d2) => (some (.str (d1 ++ " to ".data ++ d2)), some "global".data)
      | none =>
        match searchFirst matchVerboseRange raw.length raw with
        | some (d1, d2) => (some (.str (d1 ++ " to ".data ++ d2)), some "global".data)
        | none =>
          match searchFirst
              (spSingleAt "statement".data (fun t => (matchDate t).map Prod.fst))
              raw.length raw with
          | some d => (some (.str d), some "global".data)
          | none =>
            match searchFirst
                (spSingleAt "billing".data (fun t => (matchDate t).map Prod.fst))
                raw.length raw with
            | some d => (some (.str d), some "global".data)
            | none =>
              match searchFirst
                  (spSingleAt "statement".data (fun t => (matchVerbose t).map Prod.fst))
                  raw.length raw with
              | some d => (some (.str d), some "global".data)
              | none => (none, none)

/-! ### due_date branch -/

/-- `\s*[:=]?\s*` (all runs forced by the following literal/digit). -/
def sepColonEq (s : List Char) : List Char :=
  let r1 := ws0 s
  match r1 with
  | ':' :: r2 => ws0 r2
  | '=' :: r2 => ws0 r2
  | _ => r1

/-- `payment\s+due\s+date` at a position: text after the match. -/
def pddAt (s : List Char) : Option (List Char) :=
  if prefixCI "payment".data s then
    match ws1 (s.drop 7) with
    | none => none
    | some r =>
      if prefixCI "due".data r then
        match ws1 (r.drop 3) with
        | none => none
        | some r2 => if prefixCI "date".data r2 then some (r2.drop 4) else none
      else none
  else none

/-- `due\s+date` at a position: text after the match. -/
def ddAt (s : List Char) : Option (List Char) :=
  if prefixCI "due".data s then
    match ws1 (s.drop 3) with
    | none => none
    | some r => if prefixCI "date".data r then some (r.drop 4) else none
  else none

/-- Immediate pattern 1 `payment\s+due\s+date\s*[:=]?\s*(immediate)`. -/
def imm1At (s : List Char) : Option Unit :=
  match pddAt s with
  | none => none
  | some r => if prefixCI "immediate".data (sepColonEq r) then some () else none

/-- Immediate pattern 2 `(?:payment\s+due\s+date|due\s+date).*?(immediate)`. -/
def imm2At (s : List Char) : Option Unit :=
  let tail := fun (r : List Char) =>
    lazyScan (fun t => if prefixCI "immediate".data t then some () else none)
      r.length r
  match pddAt s with
  | some r => tail r
  | none =>
    match ddAt s with
    | some r => tail r
    | none => none

/-- A labelled due-date pattern: label then `\s*[:=]?\s*` then a date form. -/
def dueLabeledAt (lab : List Char → Option (List Char))
    (m : List Char → Option (List Char × List Char)) (s : List Char) :
    Option (List Char) :=
  match lab s with
  | none => none
  | some r => (m (sepColonEq r)).map Prod.fst

/-- The due_date branch of `_global_search`: the two `immediate` patterns
are tried before any date pattern. -/
def globalDueDate (raw : List Char) : Option Value × Option (List Char) :=
  match searchFirst imm1At raw.length raw with
  | some _ => (some (.str "Immediate".data), some "global".data)
  | none =>
    match searchFirst imm2At raw.length raw with
    | some _ => (some (.str "Immediate".data), some "global".data)
    | none =>
      match searchFirst (dueLabeledAt pddAt matchDate) raw.length raw with
      | some d => (some (.str d), some "global".data)
      | none =>
        match searchFirst (dueLabeledAt ddAt matchDate) raw.length raw with
        | some d => (some (.str d), some "global".data)
        | none =>
          match searchFirst (dueLabeledAt pddAt matchVerbose) raw.length raw with
          | some d => (some (.str d), some "global".data)
          | none =>
            match searchFirst (dueLabeledAt ddAt matchVerbose) raw.length raw with
            | some d => (some (.str d), some "global".data)
            | none => (none, none)

/-! ### amount_due / credit_limit branch -/

/-- `total\s+(?:payment\s+)?(?:amount\s+)?due` at a position (the first
alternative of the amount_due label; it carries no capture group because
the `|` in the label has lowest precedence in the assembled pattern). -/
def amtLabelAAt (s : List Char) : Bool :=
  prefixCI "total".data s &&
    match ws1 (s.drop 5) with
    | none => false
    | some r =>
      let tryAmt := fun (t : List Char) =>
        (if prefixCI "amount".data t then
          match ws1 (t.drop 6) with
          | some t2 => prefixCI "due".data t2
          | none => false
        else false) || prefixCI "due".data t
      (if prefixCI "payment".data r then
        match ws1 (r.drop 7) with
        | some r2 => tryAmt r2
        | none => false
      else false) || tryAmt r

/-- `total\s+dues` at a position: text after the match. -/
def totalDuesAt (s : List Char) : Option (List Char) :=
  if prefixCI "total".data s then
    match ws1 (s.drop 5) with
    | none => none
    | some r => if prefixCI "dues".data r then some (r.drop 4) else none
  else none

/-- `(?:total\s+)?credit\s+limit` at a position: text after the match
(the `total` branch is tried first, then retried absent). -/
def creditLimitLabelAt (s : List Char) : Option (List Char) :=
  let core := fun (t : List Char) =>
    if prefixCI "credit".data t then
      match ws1 (t.drop 6) with
      | none => none
      | some r => if prefixCI "limit".data r then some (r.drop 5) else none
    else none
  match
    (if prefixCI "total".data s then
      match ws1 (s.drop 5) with
      | some r => core r
      | none => none
    else none) with
  | some r => some r
  | none => core s

/-- `\s*[:=]?\s*(?:CURR\s*)?\s*` then the number group (the separator part
of amount patterns 1 and 2; every run is forced by the next literal). -/
def amountSepNum (s : List Char) : Option (List Char) :=
  let r1 := sepColonEq s
  let r2 :=
    if prefixCI "CURR".data r1 then ws0 (r1.drop 4) else r1
  (matchNum (ws0 r2)).map Prod.fst

/-- Word-boundary test after a label: next char absent or not a word char. -/
def atBoundary : List Char → Bool
  | [] => true
  | c :: _ => !wordChar c

/-- Amount pattern 1 for `amount_due` at a position: alternative A (bare
label, no group) is tried before alternative B (`total\s+dues` + number);
`some none` is a match whose `group(1)` is `None`. -/
def amtDuePat1At (s : List Char) : Option (Option (List Char)) :=
  if amtLabelAAt s then some none
  else
    match totalDuesAt s with
    | none => none
    | some r => (amountSepNum r).map some

/-- Amount pattern 2 for `amount_due`: alternative B carries the `\b`. -/
def amtDuePat2At (s : List Char) : Option (Option (List Char)) :=
  if amtLabelAAt s then some none
  else
    match totalDuesAt s with
    | none => none
    | some r =>
      if atBoundary r then (amountSepNum r).map some else none

/-- Tail `.*?\s*([0-9,]+\.?\d*)` of amount pattern 3: the earliest number
token after the label, not crossing a newline. -/
def lazyNum (r : List Char) : Option (List Char) :=
  lazyScan (fun t => (matchNum t).map Prod.fst) r.length r

/-- Amount pattern 3 for `amount_due`. -/
def amtDuePat3At (s : List Char) : Option (Option (List Char)) :=
  if amtLabelAAt s then some none
  else
    match totalDuesAt s with
    | none => none
    | some r =>
      if atBoundary r then (lazyNum r).map some else none

/-- Credit-limit patterns 1–3 at a position (no top-level alternation:
the whole label keeps its number group). -/
def climPat1At (s : List Char) : Option (Option (List Char)) :=
  match creditLimitLabelAt s with
  | none => none
  | some r => (amountSepNum r).map some

/-- Credit-limit pattern 2 (label with `\b`). -/
def climPat2At (s : List Char) : Option (Option (List Char)) :=
  match creditLimitLabelAt s with
  | none => none
  | some r => if atBoundary r then (amountSepNum r).map some else none

/-- Credit-limit pattern 3 (label with `\b` then lazy number). -/
def climPat3At (s : List Char) : Option (Option (List Char)) :=
  match creditLimitLabelAt s with
  | none => none
  | some r => if atBoundary r then (lazyNum r).map some else none

/-- The labelled-pattern loop of the amount branch: a pattern whose first
match has `group(1) = None` (or whose number fails parsing or bounds) is
skipped, and the next pattern is tried. -/
def amountPatLoop (raw : List Char) (lo hi : ℚ)
    (pats : List (List Char → Option (Option (List Char)))) : Option ℚ :=
  match pats with
  | [] => none
  | p :: rest =>
    match searchFirst p raw.length raw with
    | some (some g) =>
      match parseNum g with
      | some q => if lo < q && q < hi then some q else amountPatLoop raw lo hi rest
      | none => amountPatLoop raw lo hi rest
    | _ => amountPatLoop raw lo hi rest

/-- `account\s+summary|total\s+amount\s+due|credit\s+limit` at a position:
text after the first alternative that matches. -/
def summaryKeywordAt (s : List Char) : Option (List Char) :=
  let two := fun (a b : List Char) (n : ℕ) =>
    if prefixCI a s then
      match ws1 (s.drop n) with
      | some r => if prefixCI b r then some (r.drop b.length) else none
      | none => none
    else none
  match two "account".data "summary".data 7 with
  | some r => some r
  | none =>
    match
      (if prefixCI "total".data s then
        match ws1 (s.drop 5) with
        | some r =>
          if prefixCI "amount".data r then
            match ws1 (r.drop 6) with
            | some r2 => if prefixCI "due".data r2 then some (r2.drop 3) else none
            | none => none
          else none
        | none => none
      else none) with
    | some r => some r
    | none => two "credit".data "limit".data 6

/-- `.*?` under `re.DOTALL`: earliest tail match, newlines allowed. -/
def dotAllScan (m : List Char → Option α) : ℕ → List Char → Option α
  | 0, _ => none
  | _ + 1, [] => m []
  | fuel + 1, c :: rest =>
    match m (c :: rest) with
    | some x => some x
    | none => dotAllScan m fuel rest

/-- The summary-keyword fallback match: first number (anywhere after a
keyword, `re.DOTALL`) of the leftmost keyword occurrence that has one. -/
def summaryFallbackAt (s : List Char) : Option (List Char) :=
  match summaryKeywordAt s with
  | none => none
  | some r => dotAllScan (fun t => (matchNum t).map Prod.fst) r.length r

/-- The amount branch of `_global_search` for a field with windows
`(lo, hi)` for the labelled patterns and `(flo, fhi)` for the fallback. -/
def globalAmount (raw : List Char)
    (pats : List (List Char → Option (Option (List Char))))
    (lo hi flo fhi : ℚ) : Option Value × Option (List Char) :=
  match amountPatLoop raw lo hi pats with
  | some q => (some (.num q), some "global".data)
  | none =>
    match searchFirst summaryFallbackAt raw.length raw with
    | some g =>
      match parseNum g with
      | some q =>
        if flo < q && q < fhi then (some (.num q), some "global-fallback".data)
        else (none, none)
      | none => (none, none)
    | none => (none, none)

/-- `_global_search`: the per-field regex cascade over the raw text. -/
def global_search (raw : List Char) (f : Field) :
    Option Value × Option (List Char) :=
  match f with
  | .card_last_4 => globalCard raw
  | .statement_period => globalStatementPeriod raw
  | .due_date => globalDueDate raw
  | .amount_due =>
    globalAmount raw [amtDuePat1At, amtDuePat2At, amtDuePat3At] 50 1000000 100 500000
  | .credit_limit =>
    globalAmount raw [climPat1At, climPat2At, climPat3At] 1000 5000000 5000 1000000

/-! ## `_normalize_currency` -/

/-- Python `str.replace`: leftmost, non-overlapping, resume after the
replacement (fuel = text length; the pattern is never empty). -/
def replaceAll (p repl : List Char) : ℕ → List Char → List Char
  | 0, s => s
  | _ + 1, [] => []
  | fuel + 1, c :: rest =>
    if p.isPrefixOf (c :: rest) then
      repl ++ replaceAll p repl fuel ((c :: rest).drop p.length)
    else c :: replaceAll p repl fuel rest

/-- `str.replace` wrapper. -/
def replaceStr (p repl s : List Char) : List Char := replaceAll p repl s.length s

/-- `\(in\s+Rs\.\)` at a position (case-sensitive): rest after the match. -/
def matchInRs (s : List Char) : Option (List Char) :=
  if "(in".data.isPrefixOf s then
    match ws1 (s.drop 3) with
    | none => none
    | some r => if "Rs.)".data.isPrefixOf r then some (r.drop 4) else none
  else none

/-- `re.sub(r'\(in\s+Rs\.\)', '', text)`. -/
def removeInRs : ℕ → List Char → List Char
  | 0, s => s
  | _ + 1, [] => []
  | fuel + 1, c :: rest =>
    match matchInRs (c :: rest) with
    | some r => removeInRs fuel r
    | none => c :: removeInRs fuel rest

/-- `(?i)([ \n\t\r\f\v]*)?r(?=[0-9,]+\.?\d*)` at a position: the captured
whitespace run and the rest after the matched `r`; the lookahead holds
exactly when the next character is a digit or comma. -/
def rCurrMatch (s : List Char) : Option (List Char × List Char) :=
  let (w, r) := spanP pySpace s
  match r with
  | c :: d :: rest =>
    if (c = 'r' || c = 'R') && (digitChar d || d = ',') then some (w, d :: rest)
    else none
  | _ => none

/-- `re.sub` of the currency-`r` pattern, replacement `\1CURR `. -/
def subRCurr : ℕ → List Char → List Char
  | 0, s => s
  | _ + 1, [] => []
  | fuel + 1, c :: rest =>
    match rCurrMatch (c :: rest) with
    | some (w, r) => w ++ "CURR ".data ++ subRCurr fuel r
    | none => c :: subRCurr fuel rest

/-- `\s+Dr\b` (resp. `Cr`) at a position: rest after the literal. -/
def drMatch (w : List Char) (s : List Char) : Option (List Char) :=
  let (ws, r) := spanP pySpace s
  if ws.isEmpty then none
  else if w.isPrefixOf r && atBoundary (r.drop w.length) then some (r.drop w.length)
  else none

/-- `re.sub(r'\s+Dr\b', ' Dr', text)` (and the `Cr` variant). -/
def subWordSpace (w : List Char) : ℕ → List Char → List Char
  | 0, s => s
  | _ + 1, [] => []
  | fuel + 1, c :: rest =>
    match drMatch w (c :: rest) with
    | some r => ' ' :: (w ++ subWordSpace w fuel r)
    | none => c :: subWordSpace w fuel rest

/-- `re.sub(r'\s+', ' ', text)`: each maximal whitespace run becomes one
space (emitted at the end of the run). -/
def collapseWs : List Char → List Char
  | [] => []
  | c :: rest =>
    if pySpace c then
      match rest with
      | [] => [' ']
      | d :: _ => if pySpace d then collapseWs rest else ' ' :: collapseWs rest
    else c :: collapseWs rest

/-- The rupee sign `₹`. -/
def rupeeChar : Char := Char.ofNat 0x20B9

/-- The backtick rupee glyph. -/
def backtickChar : Char := Char.ofNat 96

/-- Substring occurrence: some suffix of `s` starts with `p`. -/
def hasSub (p s : List Char) : Bool := containsAt (p.isPrefixOf ·) s

/-- The currency-`r` trigger pair: `r`/`R` immediately followed by a
digit or comma (the lookahead of the step-5 pattern). -/
def pairRD (a b : Char) : Bool := (a = 'r' || a = 'R') && (digitChar b || b = ',')

/-- Some adjacent pair of the text is a currency-`r` trigger. -/
def rThenDigit : List Char → Bool
  | a :: b :: rest => pairRD a b || rThenDigit (b :: rest)
  | _ => false

/-- Whitespace is fully collapsed: every whitespace character is a plain
space and no whitespace character is followed by another. -/
def wsOk : List Char → Bool
  | [] => true
  | [a] => !pySpace a || a = ' '
  | a :: b :: rest => (!pySpace a || (a = ' ' && !pySpace b)) && wsOk (b :: rest)

/-- `_normalize_currency`: the seven replacement steps in source order. -/
def normalize_currency (text : List Char) : List Char :=
  let t1 := replaceStr [rupeeChar] " CURR ".data text
  let t2 := replaceStr [backtickChar] " CURR ".data t1
  let t3 := replaceStr "Rs.".data " CURR ".data t2
  let t4 := removeInRs t3.length t3
  let t5 := subRCurr t4.length t4
  let t6 := subWordSpace "Dr".data t5.length t5
  let t7 := subWordSpace "Cr".data t6.length t6
  collapseWs t7

/-! ## The orchestrator loop (`extract`)

The per-field body of `extract` (the three tiers plus amount
post-processing) is abstracted as an `attempt` function so that the
`try/except` around it can be modelled: `Except.error` is an exception
raised while resolving that field, which the source catches and treats
as a null result (no assignment has happened at any raise point, so both
`value` and `source` remain `None`). -/

/-- The caught-exception handling of one field in `extract`'s loop. -/
def fieldOutcome (attempt : Field → Except Unit (Option Value × Option (List Char)))
    (f : Field) : Option Value × Option (List Char) :=
  match attempt f with
  | .ok p => p
  | .error _ => (none, none)

/-- Alert string `f"{field_name} not found"`. -/
def alertStr (f : Field) : List Char := fieldName f ++ " not found".data

/-- The tail of `extract`: assemble the result record from the per-field
outcomes, counting non-null fields and grading confidence. -/
def extractWith (attempt : Field → Except Unit (Option Value × Option (List Char))) :
    ExtractionResult :=
  let found := (fieldOrder.filter (fun f => (fieldOutcome attempt f).1.isSome)).length
  { value := fun f => (fieldOutcome attempt f).1
    pattern := fun f => (fieldOutcome attempt f).2
    fieldsExtracted := found
    confidence :=
      if 4 ≤ found then "high".data else if 2 ≤ found then "medium".data else "low".data
    alerts := (fieldOrder.filter (fun f => (fieldOutcome attempt f).1 = none)).map alertStr
    hasWarnings :=
      ((fieldOrder.filter (fun f => (fieldOutcome attempt f).1 = none)).map alertStr) ≠ []
    extractionMethod := "enhanced_regex_robust_rbl_fixed".data }

/-- The amount post-processing of `extract`: a string value of an amount
field is converted with `float` (`None` on failure); the origin tag is
left untouched.  (No tier produces a string for an amount field, so the
branch is reachable only in principle.) -/
def postAmount (f : Field) (p : Option Value × Option (List Char)) :
    Option Value × Option (List Char) :=
  if f = .amount_due || f = .credit_limit then
    match p.1 with
    | some (.str s) =>
      match parseNum s with
      | some q => (some (.num q), p.2)
      | none => (none, p.2)
    | _ => p
  else p

/-- The tier cascade of `extract` for one field: tables (if any), then
blocks (if any), then the global search, stopping at the first non-null
value, followed by the amount post-processing. -/
def tier_search (doc : Document) (f : Field) :
    Option Value × Option (List Char) :=
  let p1 := if !doc.tables.isEmpty then find_in_tables doc.tables f else (none, none)
  let p2 :=
    if p1.1.isNone && !doc.blocks.isEmpty then find_in_blocks doc.blocks f else p1
  let p3 := if p2.1.isNone then global_search doc.rawText f else p2
  postAmount f p3

/-- `extract` on a readable document: every per-field attempt succeeds. -/
def extract (doc : Document) : ExtractionResult :=
  extractWith (fun f => .ok (tier_search doc f))

/-- `extract` with an exception oracle: `exc f = true` models an exception
raised while resolving field `f`, caught by the per-field `try/except`
(at every raise point inside the guarded region neither `value` nor
`source` has been assigned a non-null pair, so the caught state is
`(None, None)`). -/
def extractExc (doc : Document) (exc : Field → Bool) : ExtractionResult :=
  extractWith (fun f => if exc f then .error () else .ok (tier_search doc f))

/-! ## A fault-checked table search

The same search as `find_in_tables`, but every indexed cell access
(`row[i]`, `table[r]`, `table[r][cell_idx]`) goes through `List.get?` and
raises `Except.error` if it is out of bounds; the source's guards
(`range` bounds and the `cell_idx < len(table[r])` check) are kept.
Proving it never errors shows the search is total on ragged, empty, or
irregular table shapes. -/

/-- Checked right-of-label candidates `row[i]` for `i` in
`range(cell_idx+1, len(row))`. -/
def rightCellsChecked (row : List (List Char)) :
    List ℕ → Except Unit (List (List Char))
  | [] => .ok []
  | i :: is' =>
    match row.get? i with
    | none => .error ()
    | some c => (rightCellsChecked row is').map (c :: ·)

/-- Checked below-label candidates `table[r][cell_idx]` for `r` in
`range(row_idx+1, len(table))`, guarded by `cell_idx < len(table[r])`. -/
def belowCellsChecked (table : Table) (cellIdx : ℕ) :
    List ℕ → Except Unit (List (List Char))
  | [] => .ok []
  | r :: rs =>
    match table.get? r with
    | none => .error ()
    | some row =>
      if cellIdx < row.length then
        match row.get? cellIdx with
        | none => .error ()
        | some cell => (belowCellsChecked table cellIdx rs).map (cell :: ·)
      else belowCellsChecked table cellIdx rs

/-- Checked candidate list for one cell position. -/
def candsChecked (table : Table) (row : List (List Char)) (rowIdx cellIdx : ℕ) :
    Except Unit (List (List Char)) := do
  let right ← rightCellsChecked row
    (List.range' (cellIdx + 1) (row.length - (cellIdx + 1)))
  let below ← belowCellsChecked table cellIdx
    (List.range' (rowIdx + 1) (table.length - (rowIdx + 1)))
  return right ++ below

/-- Checked cell loop. -/
def tableCellLoopChecked (f : Field) (table : Table) (rowIdx : ℕ)
    (row : List (List Char)) :
    ℕ → List (List Char) → Except Unit (Option Value × Option (List Char))
  | _, [] => .ok (none, none)
  | cellIdx, cell :: rest => do
    let cands ← candsChecked table row rowIdx cellIdx
    match tablePatLoop f (lowerStr cell) cands (FIELD_LABELS f) with
    | (some v, s) => return (some v, s)
    | (none, _) => tableCellLoopChecked f table rowIdx row (cellIdx + 1) rest

/-- Checked row loop. -/
def tableRowLoopChecked (f : Field) (table : Table) :
    ℕ → List (List (List Char)) → Except Unit (Option Value × Option (List Char))
  | _, [] => .ok (none, none)
  | rowIdx, row :: rest => do
    match ← tableCellLoopChecked f table rowIdx row 0 row with
    | (some v, s) => return (some v, s)
    | (none, _) => tableRowLoopChecked f table (rowIdx + 1) rest

/-- `_find_in_tables` with fault-checked cell accesses. -/
def find_in_tables_checked (tables : List Table) (f : Field) :
    Except Unit (Option Value × Option (List Char)) :=
  match tables with
  | [] => .ok (none, none)
  | table :: rest => do
    match ← tableRowLoopChecked f table 0 table with
    | (some v, s) => return (some v, s)
    | (none, _) => find_in_tables_checked rest f

/-! # Theorems -/

theorem mem_fieldOrder (f : Field) : f ∈ fieldOrder := by
  cases f <;> simp [fieldOrder]

theorem grade_eq_iff (n : ℕ) :
    ((if 4 ≤ n then "high".data else if 2 ≤ n then "medium".data else "low".data) =
        "high".data ↔ 4 ≤ n) ∧
    ((if 4 ≤ n then "high".data else if 2 ≤ n then "medium".data else "low".data) =
        "medium".data ↔ 2 ≤ n ∧ n < 4) ∧
    ((if 4 ≤ n then "high".data else if 2 ≤ n then "medium".data else "low".data) =
        "low".data ↔ n < 2) := by
  by_cases h4 : 4 ≤ n <;> by_cases h2 : 2 ≤ n <;>
    simp [h4, h2] <;> first | omega | (refine ⟨by decide, by omega⟩) | decide

/-- C7: for every result assembled by the orchestrator loop, `confidence`
is determined exhaustively and exclusively by `fields_extracted`, the
count of non-null values among the five fields: `high` iff
`fields_extracted ≥ 4`, `medium` iff `2 ≤ fields_extracted < 4`, and
`low` iff `fields_extracted < 2`. -/
theorem confidence_grading
    (attempt : Field → Except Unit (Option Value × Option (List Char))) :
    ((extractWith attempt).confidence = "high".data ↔
        4 ≤ (extractWith attempt).fieldsExtracted) ∧
    ((extractWith attempt).confidence = "medium".data ↔
        2 ≤ (extractWith attempt).fieldsExtracted ∧
          (extractWith attempt).fieldsExtracted < 4) ∧
    ((extractWith attempt).confidence = "low".data ↔
        (extractWith attempt).fieldsExtracted < 2) ∧
    (extractWith attempt).fieldsExtracted =
      (fieldOrder.filter (fun f => ((extractWith attempt).value f).isSome)).length := by
  refine ⟨(grade_eq_iff _).1, (grade_eq_iff _).2.1, (grade_eq_iff _).2.2, rfl⟩

/-- C3: the orchestrator always assembles a complete result: a caught
per-field exception nulls only that field, every other field keeps the
outcome of its own attempt, an alert `"<field> not found"` is recorded
for every null field, and a result with at most one resolved field is
graded `low` instead of failing. -/
theorem extract_error_containment
    (attempt : Field → Except Unit (Option Value × Option (List Char))) (f : Field) :
    (attempt f = .error () →
      (extractWith attempt).value f = none ∧
        ∀ g, g ≠ f → (extractWith attempt).value g = (fieldOutcome attempt g).1) ∧
    (∀ g, (extractWith attempt).value g = none →
      alertStr g ∈ (extractWith attempt).alerts) ∧
    ((extractWith attempt).fieldsExtracted ≤ 1 →
      (extractWith attempt).confidence = "low".data) := by
  refine ⟨fun h => ⟨?_, fun g _ => rfl⟩, fun g hg => ?_, fun h1 => ?_⟩
  · show (fieldOutcome attempt f).1 = none
    simp [fieldOutcome, h]
  · show alertStr g ∈ (fieldOrder.filter
      (fun f => (fieldOutcome attempt f).1 = none)).map alertStr
    exact List.mem_map_of_mem _ (List.mem_filter.2 ⟨mem_fieldOrder g, by
      simpa using hg⟩)
  · exact (grade_eq_iff _).2.2.2 (Nat.lt_succ_of_le h1)

theorem extract_error_containment_witness :
    (extractWith (fun _ => Except.error ())).value .card_last_4 = none ∧
    alertStr .due_date ∈ (extractWith (fun _ => Except.error ())).alerts ∧
    (extractWith (fun _ => Except.error ())).confidence = "low".data := by
  refine ⟨((extract_error_containment (fun _ => Except.error ()) .card_last_4).1 rfl).1,
    (extract_error_containment (fun _ => Except.error ()) .card_last_4).2.1
      .due_date (by decide),
    (extract_error_containment (fun _ => Except.error ()) .card_last_4).2.2 (by decide)⟩

/-- C1: the tier cascade of `extract` tries tables, then blocks, then the
global search, and the first tier that returns a non-null validated value
is final: its value (after amount post-processing) is the field's result
regardless of the content of every later tier's evidence, and a tier is
consulted only when all earlier tiers returned null. -/
theorem tier_order_first_hit_wins (tbls : List Table) (blks : List Block)
    (txt : List Char) (f : Field) :
    (∀ v s, tbls ≠ [] → find_in_tables tbls f = (some v, s) →
      ∀ blks' txt', tier_search ⟨tbls, blks', txt'⟩ f = postAmount f (some v, s)) ∧
    ((tbls = [] ∨ (find_in_tables tbls f).1 = none) → blks ≠ [] →
      ∀ v s, find_in_blocks blks f = (some v, s) →
      ∀ txt', tier_search ⟨tbls, blks, txt'⟩ f = postAmount f (some v, s)) ∧
    ((tbls = [] ∨ (find_in_tables tbls f).1 = none) →
      (blks = [] ∨ (find_in_blocks blks f).1 = none) →
      tier_search ⟨tbls, blks, txt⟩ f = postAmount f (global_search txt f)) := by
  refine ⟨fun v s htb h blks' txt' => ?_, fun h1 hbl v s h txt' => ?_, fun h1 h2 => ?_⟩
  · cases tbls with
    | nil => exact absurd rfl htb
    | cons t ts => simp [tier_search, h]
  · rcases h1 with h1 | h1
    · subst h1
      cases blks with
      | nil => exact absurd rfl hbl
      | cons b bs => simp [tier_search, h]
    · cases blks with
      | nil => exact absurd rfl hbl
      | cons b bs =>
        cases tbls with
        | nil => simp [tier_search, h]
        | cons t ts => simp [tier_search, h1, h]
  · rcases h1 with h1 | h1
    · subst h1
      rcases h2 with h2 | h2
      · subst h2; simp [tier_search]
      · cases blks with
        | nil => simp [tier_search]
        | cons b bs => simp [tier_search, h2]
    · rcases h2 with h2 | h2
      · subst h2
        cases tbls with
        | nil => simp [tier_search]
        | cons t ts => simp [tier_search, h1]
      · cases tbls with
        | nil =>
          cases blks with
          | nil => simp [tier_search]
          | cons b bs => simp [tier_search, h2]
        | cons t ts =>
          cases blks with
          | nil => simp [tier_search, h1]
          | cons b bs => simp [tier_search, h1, h2]

theorem tier_order_first_hit_wins_witness :
    tier_search ⟨[[["amount due".data, "1,234".data]]],
        [⟨"total amount due CURR 9,999".data, 0, 0, 10, 10, 0⟩],
        "total amount due CURR 8,888".data⟩ .amount_due =
      postAmount .amount_due (some (.num 1234), some "table:amount\\s+due".data) ∧
    tier_search ⟨[], [⟨"credit limit 2,00,000".data, 0, 0, 10, 10, 0⟩],
        "credit limit CURR 9,99,999".data⟩ .credit_limit =
      postAmount .credit_limit (some (.num 200000), some "block:credit\\s+limit".data) ∧
    tier_search ⟨[], [], "credit limit 50,000".data⟩ .credit_limit =
      postAmount .credit_limit (global_search "credit limit 50,000".data .credit_limit) := by
  refine ⟨(tier_order_first_hit_wins [[["amount due".data, "1,234".data]]] [] []
      .amount_due).1 (.num 1234) (some "table:amount\\s+due".data)
      (by decide) (by decide) _ _,
    (tier_order_first_hit_wins []
      [⟨"credit limit 2,00,000".data, 0, 0, 10, 10, 0⟩] [] .credit_limit).2.1
      (Or.inl rfl) (by decide) (.num 200000) (some "block:credit\\s+limit".data)
      (by decide) _,
    (tier_order_first_hit_wins [] [] "credit limit 50,000".data .credit_limit).2.2
      (Or.inl rfl) (Or.inl rfl)⟩

/-! ### Soundness and shape of the three tiers -/

theorem firstNumInWindow_sound {lo hi : ℚ} {l : List (List Char)} {v : Value}
    (h : firstNumInWindow lo hi l = some v) : ∃ q, v = .num q ∧ lo < q ∧ q < hi := by
  induction l with
  | nil => simp [firstNumInWindow] at h
  | cons c rest ih =>
    simp only [firstNumInWindow] at h
    split at h
    · next q hq =>
      split at h
      · next hb =>
        refine ⟨q, by simpa using h.symm, ?_, ?_⟩
        · exact of_decide_eq_true (Bool.and_elim_left hb)
        · exact of_decide_eq_true (Bool.and_elim_right hb)
      · exact ih h
    · exact ih h

theorem extract_by_type_amount_sound {f : Field} {t : List Char} {v : Value}
    (hf : f = .amount_due ∨ f = .credit_limit)
    (h : extract_by_type f t = some v) :
    ∃ q, v = .num q ∧
      ((f = .amount_due → 50 < q ∧ q < 1000000) ∧
       (f = .credit_limit → 1000 < q ∧ q < 50000000)) := by
  rcases hf with hf | hf <;> subst hf <;> simp only [extract_by_type] at h <;>
    split at h <;> simp_all <;>
    obtain ⟨q, rfl, h1, h2⟩ := firstNumInWindow_sound h <;> exact ⟨q, rfl, h1, h2⟩

theorem tryCands_sound {f : Field} {l : List (List Char)} {v : Value}
    (h : tryCands f l = some v) : ∃ c, extract_by_type f c = some v := by
  induction l with
  | nil => simp [tryCands] at h
  | cons c rest ih =>
    simp only [tryCands] at h
    split at h
    · next hc => exact ⟨c, by rw [hc]; exact h⟩
    · exact ih h

theorem tablePatLoop_sound (f : Field) (cl : List Char) (cands : List (List Char))
    (pats : List (List Char × (List Char → Bool))) :
    tablePatLoop f cl cands pats = (none, none) ∨
    ∃ v tag, tablePatLoop f cl cands pats = (some v, some ("table:".data ++ tag)) ∧
      ∃ c, extract_by_type f c = some v := by
  induction pats with
  | nil => exact Or.inl rfl
  | cons p rest ih =>
    obtain ⟨tag, m⟩ := p
    simp only [tablePatLoop]
    split
    · split
      · next v hv => exact Or.inr ⟨v, tag, rfl, tryCands_sound hv⟩
      · exact ih
    · exact ih

theorem tableCellLoop_sound (f : Field) (table : Table) (rowIdx : ℕ)
    (row : List (List Char)) :
    ∀ cells cellIdx, tableCellLoop f table rowIdx row cellIdx cells = (none, none) ∨
    ∃ v tag,
      tableCellLoop f table rowIdx row cellIdx cells = (some v, some ("table:".data ++ tag)) ∧
      ∃ c, extract_by_type f c = some v := by
  intro cells
  induction cells with
  | nil => exact fun _ => Or.inl rfl
  | cons cell rest ih =>
    intro cellIdx
    simp only [tableCellLoop]
    rcases tablePatLoop_sound f (lowerStr cell)
        (row.drop (cellIdx + 1) ++ belowCells table rowIdx cellIdx) (FIELD_LABELS f) with
      h | ⟨v, tag, h, hc⟩
    · rw [h]; exact ih (cellIdx + 1)
    · rw [h]; exact Or.inr ⟨v, tag, rfl, hc⟩

theorem tableRowLoop_sound (f : Field) (table : Table) :
    ∀ rows rowIdx, tableRowLoop f table rowIdx rows = (none, none) ∨
    ∃ v tag, tableRowLoop f table rowIdx rows = (some v, some ("table:".data ++ tag)) ∧
      ∃ c, extract_by_type f c = some v := by
  intro rows
  induction rows with
  | nil => exact fun _ => Or.inl rfl
  | cons row rest ih =>
    intro rowIdx
    simp only [tableRowLoop]
    rcases tableCellLoop_sound f table rowIdx row row 0 with h | ⟨v, tag, h, hc⟩
    · rw [h]; exact ih (rowIdx + 1)
    · rw [h]; exact Or.inr ⟨v, tag, rfl, hc⟩

theorem find_in_tables_sound (tables : List Table) (f : Field) :
    find_in_tables tables f = (none, none) ∨
    ∃ v tag, find_in_tables tables f = (some v, some ("table:".data ++ tag)) ∧
      ∃ c, extract_by_type f c = some v := by
  induction tables with
  | nil => exact Or.inl rfl
  | cons table rest ih =>
    simp only [find_in_tables]
    rcases tableRowLoop_sound f table table 0 with h | ⟨v, tag, h, hc⟩
    · rw [h]
      rcases ih with ih | ⟨v, tag, ih, hc⟩
      · rw [ih]; exact Or.inl rfl
      · rw [ih]; exact Or.inr ⟨v, tag, rfl, hc⟩
    · rw [h]; exact Or.inr ⟨v, tag, rfl, hc⟩

theorem blockNearLoop_sound {sorted' : List Block} {f : Field} {base : Block}
    {idx : ℕ} {offs : List ℕ} {v : Value}
    (h : blockNearLoop sorted' f base idx offs = some v) :
    ∃ c, extract_by_type f c = some v := by
  induction offs with
  | nil => simp [blockNearLoop] at h
  | cons o rest ih =>
    simp only [blockNearLoop] at h
    split at h
    · exact ih h
    · next nb _ =>
      split at h
      · split at h
        · next hc => exact ⟨nb.text, by rw [hc]; exact congrArg some (by injection h)⟩
        · exact ih h
      · exact ih h

theorem blockPatLoop_sound (sorted' : List Block) (f : Field) (block : Block) (idx : ℕ)
    (pats : List (List Char × (List Char → Bool))) :
    blockPatLoop sorted' f block idx pats = (none, none) ∨
    ∃ v tag m, (tag, m) ∈ pats ∧ m (lowerStr block.text) ∧
      ((blockPatLoop sorted' f block idx pats = (some v, some ("block:".data ++ tag)) ∧
          extract_by_type f block.text = some v) ∨
       (blockPatLoop sorted' f block idx pats =
          (some v, some ("block-near:".data ++ tag)) ∧
          ∃ c, extract_by_type f c = some v)) := by
  induction pats with
  | nil => exact Or.inl rfl
  | cons p rest ih =>
    obtain ⟨tag, m⟩ := p
    simp only [blockPatLoop]
    split
    · next hm =>
      split
      · next v hv =>
        exact Or.inr ⟨v, tag, m, List.mem_cons_self _ _, hm, Or.inl ⟨rfl, hv⟩⟩
      · split
        · next v hv =>
          exact Or.inr ⟨v, tag, m, List.mem_cons_self _ _, hm,
            Or.inr ⟨rfl, blockNearLoop_sound hv⟩⟩
        · rcases ih with h | ⟨v, tag', m', hmem, hm', hcase⟩
          · exact Or.inl h
          · exact Or.inr ⟨v, tag', m', List.mem_cons_of_mem _ hmem, hm', hcase⟩
    · rcases ih with h | ⟨v, tag', m', hmem, hm', hcase⟩
      · exact Or.inl h
      · exact Or.inr ⟨v, tag', m', List.mem_cons_of_mem _ hmem, hm', hcase⟩

theorem blockIdxLoop_sound (sorted' : List Block) (f : Field) :
    ∀ idxs, blockIdxLoop sorted' f idxs = (none, none) ∨
    ∃ v b tag m, b ∈ sorted' ∧ noisePattern b.text = false ∧
      (tag, m) ∈ FIELD_LABELS f ∧ m (lowerStr b.text) ∧
      ((blockIdxLoop sorted' f idxs = (some v, some ("block:".data ++ tag)) ∧
          extract_by_type f b.text = some v) ∨
       (blockIdxLoop sorted' f idxs = (some v, some ("block-near:".data ++ tag)) ∧
          ∃ c, extract_by_type f c = some v)) := by
  intro idxs
  induction idxs with
  | nil => exact Or.inl rfl
  | cons idx rest ih =>
    simp only [blockIdxLoop]
    split
    · exact ih
    · next b hb =>
      split
      · exact ih
      · next hn =>
        rcases blockPatLoop_sound sorted' f b idx (FIELD_LABELS f) with
          h | ⟨v, tag, m, hmem, hm, hcase⟩
        · rw [h]; exact ih
        · refine Or.inr ⟨v, b, tag, m, List.get?_mem hb, by simpa using hn,
            hmem, hm, ?_⟩
          rcases hcase with ⟨heq, he⟩ | ⟨heq, he⟩
          · rw [heq]; exact Or.inl ⟨rfl, he⟩
          · rw [heq]; exact Or.inr ⟨rfl, he⟩

theorem find_in_blocks_sound (blocks : List Block) (f : Field) :
    find_in_blocks blocks f = (none, none) ∨
    ∃ v b tag m, b ∈ blocks ∧ noisePattern b.text = false ∧
      (tag, m) ∈ FIELD_LABELS f ∧ m (lowerStr b.text) ∧
      ((find_in_blocks blocks f = (some v, some ("block:".data ++ tag)) ∧
          extract_by_type f b.text = some v) ∨
       (find_in_blocks blocks f = (some v, some ("block-near:".data ++ tag)) ∧
          ∃ c, extract_by_type f c = some v)) := by
  have hperm : List.Perm (sortBlocks blocks) blocks := List.perm_insertionSort _ _
  rcases blockIdxLoop_sound (sortBlocks blocks) f
      (zoneRange (find_summary_zone (sortBlocks blocks)).1
        (min ((find_summary_zone (sortBlocks blocks)).2 + 10)
          (sortBlocks blocks).length)) with h | ⟨v, b, tag, m, hb, hn, hmem, hm, hcase⟩
  · exact Or.inl h
  · exact Or.inr ⟨v, b, tag, m, hperm.mem_iff.1 hb, hn, hmem, hm, hcase⟩

theorem globalCard_shape (raw : List Char) :
    globalCard raw = (none, none) ∨
    ∃ g, globalCard raw = (some (.str g), some "global".data) := by
  unfold globalCard
  repeat' split
  all_goals first
    | exact Or.inl rfl
    | exact Or.inr ⟨_, rfl⟩

theorem globalStatementPeriod_shape (raw : List Char) :
    globalStatementPeriod raw = (none, none) ∨
    ∃ g, globalStatementPeriod raw = (some (.str g), some "global".data) := by
  have hfb : ∀ r, globalStatementPeriod.globalStatementPeriodFallback r = (none, none) ∨
      ∃ g, globalStatementPeriod.globalStatementPeriodFallback r =
        (some (.str g), some "global".data) := by
    intro r
    unfold globalStatementPeriod.globalStatementPeriodFallback
    repeat' split
    all_goals first
      | exact Or.inl rfl
      | exact Or.inr ⟨_, rfl⟩
  unfold globalStatementPeriod
  repeat' split
  all_goals first
    | exact Or.inl rfl
    | exact Or.inr ⟨_, rfl⟩
    | exact hfb raw

theorem globalDueDate_shape (raw : List Char) :
    globalDueDate raw = (none, none) ∨
    ∃ g, globalDueDate raw = (some (.str g), some "global".data) := by
  unfold globalDueDate
  repeat' split
  all_goals first
    | exact Or.inl rfl
    | exact Or.inr ⟨_, rfl⟩

theorem amountPatLoop_sound {raw : List Char} {lo hi : ℚ}
    {pats : List (List Char → Option (Option (List Char)))} {q : ℚ}
    (h : amountPatLoop raw lo hi pats = some q) : lo < q ∧ q < hi := by
  induction pats with
  | nil => simp [amountPatLoop] at h
  | cons p rest ih =>
    simp only [amountPatLoop] at h
    split at h
    · split at h
      · split at h
        · next hb =>
          cases h
          exact ⟨of_decide_eq_true (Bool.and_elim_left hb),
            of_decide_eq_true (Bool.and_elim_right hb)⟩
        · exact ih h
      · exact ih h
    · exact ih h

theorem globalAmount_sound (raw : List Char)
    (pats : List (List Char → Option (Option (List Char)))) (lo hi flo fhi : ℚ) :
    globalAmount raw pats lo hi flo fhi = (none, none) ∨
    (∃ q, globalAmount raw pats lo hi flo fhi = (some (.num q), some "global".data) ∧
      lo < q ∧ q < hi) ∨
    (∃ q, globalAmount raw pats lo hi flo fhi =
        (some (.num q), some "global-fallback".data) ∧ flo < q ∧ q < fhi) := by
  unfold globalAmount
  split
  · next q hq => exact Or.inr (Or.inl ⟨q, rfl, amountPatLoop_sound hq⟩)
  · split
    · split
      · split
        · next hb =>
          exact Or.inr (Or.inr ⟨_, rfl,
            of_decide_eq_true (Bool.and_elim_left hb),
            of_decide_eq_true (Bool.and_elim_right hb)⟩)
        · exact Or.inl rfl
      · exact Or.inl rfl
    · exact Or.inl rfl

theorem global_search_shape (raw : List Char) (f : Field) :
    global_search raw f = (none, none) ∨
    ∃ v s, global_search raw f = (some v, some s) ∧
      (f = .amount_due → ∃ q, v = .num q ∧ 50 < q ∧ q < 1000000) ∧
      (f = .credit_limit → ∃ q, v = .num q ∧ 1000 < q ∧ q < 50000000) ∧
      (f = .credit_limit → s = "global".data → ∃ q, v = .num q ∧ q < 5000000) ∧
      (f = .credit_limit → s = "global-fallback".data →
        ∃ q, v = .num q ∧ 5000 < q ∧ q < 1000000) ∧
      (f = .amount_due → s = "global-fallback".data →
        ∃ q, v = .num q ∧ 100 < q ∧ q < 500000) := by
  cases f with
  | card_last_4 =>
    rcases globalCard_shape raw with h | ⟨g, h⟩
    · exact Or.inl h
    · exact Or.inr ⟨_, _, h, by simp, by simp, by simp, by simp, by simp⟩
  | statement_period =>
    rcases globalStatementPeriod_shape raw with h | ⟨g, h⟩
    · exact Or.inl h
    · exact Or.inr ⟨_, _, h, by simp, by simp, by simp, by simp, by simp⟩
  | due_date =>
    rcases globalDueDate_shape raw with h | ⟨g, h⟩
    · exact Or.inl h
    · exact Or.inr ⟨_, _, h, by simp, by simp, by simp, by simp, by simp⟩
  | amount_due =>
    rcases globalAmount_sound raw [amtDuePat1At, amtDuePat2At, amtDuePat3At]
        50 1000000 100 500000 with h | ⟨q, h, h1, h2⟩ | ⟨q, h, h1, h2⟩
    · exact Or.inl h
    · refine Or.inr ⟨_, _, h, fun _ => ⟨q, rfl, h1, h2⟩, by simp, by simp, by simp, ?_⟩
      intro _ hs
      exact absurd hs (by decide)
    · refine Or.inr ⟨_, _, h, fun _ => ⟨q, rfl, by linarith, by linarith⟩,
        by simp, by simp, by simp, fun _ _ => ⟨q, rfl, h1, h2⟩⟩
  | credit_limit =>
    rcases globalAmount_sound raw [climPat1At, climPat2At, climPat3At]
        1000 5000000 5000 1000000 with h | ⟨q, h, h1, h2⟩ | ⟨q, h, h1, h2⟩
    · exact Or.inl h
    · refine Or.inr ⟨_, _, h, by simp, fun _ => ⟨q, rfl, h1, by linarith⟩,
        fun _ _ => ⟨q, rfl, h2⟩, ?_, by simp⟩
      intro _ hs
      exact absurd hs (by decide)
    · exact Or.inr ⟨_, _, h, by simp, fun _ => ⟨q, rfl, by linarith, by linarith⟩,
        fun _ hs => absurd hs (by decide), fun _ _ => ⟨q, rfl, h1, h2⟩, by simp⟩

theorem tag_head_ne {x y : Char} (hxy : x ≠ y) (a b t : List Char) :
    (x :: a) ++ t ≠ y :: b := by
  intro h
  rw [List.cons_append] at h
  injection h with h1 _
  exact hxy h1

theorem postAmount_none (f : Field) (s : Option (List Char)) :
    postAmount f (none, s) = (none, s) := by
  unfold postAmount
  split <;> rfl

theorem postAmount_num (f : Field) (q : ℚ) (s : Option (List Char)) :
    postAmount f (some (.num q), s) = (some (.num q), s) := by
  unfold postAmount
  split <;> rfl

theorem postAmount_not_amount {f : Field} (h1 : f ≠ .amount_due)
    (h2 : f ≠ .credit_limit) (p : Option Value × Option (List Char)) :
    postAmount f p = p := by
  unfold postAmount
  rw [if_neg]
  simp [h1, h2]

theorem postAmount_of_extract {f : Field} {c : List Char} {v : Value}
    (s : Option (List Char)) (hc : extract_by_type f c = some v) :
    postAmount f (some v, s) = (some v, s) := by
  by_cases hf : f = .amount_due ∨ f = .credit_limit
  · obtain ⟨q, rfl, -⟩ := extract_by_type_amount_sound hf hc
    exact postAmount_num f q s
  · push_neg at hf
    exact postAmount_not_amount hf.1 hf.2 _

/-- The per-field tier cascade resolves to exactly one of: a table hit, a
block hit (tables missed), or the global result (both missed), each fed
through the amount post-processing. -/
theorem tier_search_cases (doc : Document) (f : Field) :
    (∃ v s, find_in_tables doc.tables f = (some v, s) ∧
      tier_search doc f = postAmount f (some v, s)) ∨
    (∃ v s, find_in_blocks doc.blocks f = (some v, s) ∧
      tier_search doc f = postAmount f (some v, s)) ∨
    tier_search doc f = postAmount f (global_search doc.rawText f) := by
  by_cases ht : doc.tables.isEmpty
  · by_cases hb : doc.blocks.isEmpty
    · right; right; simp [tier_search, ht, hb]
    · rcases find_in_blocks_sound doc.blocks f with h | ⟨v, b, tag, m, _, _, _, _, hcase⟩
      · right; right; simp [tier_search, ht, hb, h]
      · rcases hcase with ⟨heq, _⟩ | ⟨heq, _⟩ <;>
          exact Or.inr (Or.inl ⟨v, _, heq, by simp [tier_search, ht, hb, heq]⟩)
  · rcases find_in_tables_sound doc.tables f with h | ⟨v, tag, heq, _⟩
    · by_cases hb : doc.blocks.isEmpty
      · right; right; simp [tier_search, ht, hb, h]
      · rcases find_in_blocks_sound doc.blocks f with h2 | ⟨v, b, tag, m, _, _, _, _, hcase⟩
        · right; right; simp [tier_search, ht, hb, h, h2]
        · rcases hcase with ⟨heq, _⟩ | ⟨heq, _⟩ <;>
            exact Or.inr (Or.inl ⟨v, _, heq, by simp [tier_search, ht, hb, h, heq]⟩)
    · exact Or.inl ⟨v, _, heq, by simp [tier_search, ht, heq]⟩

theorem block_tags_ne (t t' : List Char) :
    "block:".data ++ t ≠ "block-near:".data ++ t' := by
  intro h
  have h5 : (':' : Char) :: t = '-' :: ("near:".data ++ t') := by
    injection h with _ h
    injection h with _ h
    injection h with _ h
    injection h with _ h
    injection h with _ h
  injection h5 with hc _
  exact absurd hc (by decide)

theorem extractExc_value (doc : Document) (exc : Field → Bool) (f : Field) :
    (extractExc doc exc).value f =
      if exc f then none else (tier_search doc f).1 := by
  by_cases h : exc f <;> simp [extractExc, extractWith, fieldOutcome, h]

theorem extractExc_pattern (doc : Document) (exc : Field → Bool) (f : Field) :
    (extractExc doc exc).pattern f =
      if exc f then none else (tier_search doc f).2 := by
  by_cases h : exc f <;> simp [extractExc, extractWith, fieldOutcome, h]

theorem tag_ne_globals {x : Char} (hx : x ≠ 'g') (a t : List Char) :
    ((x :: a) ++ t ≠ "global".data) ∧ ((x :: a) ++ t ≠ "global-fallback".data) :=
  ⟨tag_head_ne hx a "lobal".data t, tag_head_ne hx a "lobal-fallback".data t⟩

/-- Characterization of the tier cascade's result for the two amount
fields: a null value, or a rational within the window of the tier that
produced it. -/
theorem tier_amount_characterization (doc : Document) (f : Field)
    (hf : f = .amount_due ∨ f = .credit_limit) :
    (tier_search doc f).1 = none ∨
    ∃ q, (tier_search doc f).1 = some (.num q) ∧
      (f = .amount_due → 50 < q ∧ q < 1000000) ∧
      (f = .credit_limit → 1000 < q ∧ q < 50000000) ∧
      (f = .credit_limit → (tier_search doc f).2 = some "global".data →
        q < 5000000) ∧
      (f = .credit_limit → (tier_search doc f).2 = some "global-fallback".data →
        5000 < q ∧ q < 1000000) ∧
      (f = .amount_due → (tier_search doc f).2 = some "global-fallback".data →
        100 < q ∧ q < 500000) := by
  have notg : ∀ (S : List Char) (s : Option (List Char)),
      (S ≠ "global".data ∧ S ≠ "global-fallback".data) → some S = s →
      (s ≠ some "global".data ∧ s ≠ some "global-fallback".data) := by
    rintro S s ⟨h1, h2⟩ rfl
    exact ⟨fun h => h1 (Option.some.inj h), fun h => h2 (Option.some.inj h)⟩
  rcases tier_search_cases doc f with ⟨v, s, hfind, heq⟩ | ⟨v, s, hfind, heq⟩ | heq
  · rcases find_in_tables_sound doc.tables f with h | ⟨v', tag, h, c, hc⟩
    · rw [h] at hfind
      simp at hfind
    · rw [h] at hfind
      obtain ⟨hv, hs⟩ := Prod.mk.injEq .. ▸ hfind
      obtain rfl : v' = v := by simpa using hv
      obtain ⟨q, rfl, ha, hc'⟩ := extract_by_type_amount_sound hf hc
      rw [postAmount_num] at heq
      obtain ⟨hg1, hg2⟩ := notg _ s
        (tag_ne_globals (show 't' ≠ 'g' by decide) "able:".data tag) hs
      have hsnd : (tier_search doc f).2 = s := by rw [heq]
      exact Or.inr ⟨q, by rw [heq], fun h' => (ha h').imp id id,
        fun h' => (hc' h').imp id id,
        fun _ h2 => absurd (hsnd ▸ h2) hg1,
        fun _ h2 => absurd (hsnd ▸ h2) hg2,
        fun _ h2 => absurd (hsnd ▸ h2) hg2⟩
  · rcases find_in_blocks_sound doc.blocks f with
      h | ⟨v', b, tag, m, _, _, _, _, hcase⟩
    · rw [h] at hfind
      simp at hfind
    · have hev : ∃ c, extract_by_type f c = some v' := by
        rcases hcase with ⟨_, he⟩ | ⟨_, he⟩
        · exact ⟨b.text, he⟩
        · exact he
      obtain ⟨c, hc⟩ := hev
      have step : ∀ S : List Char,
          (S ≠ "global".data ∧ S ≠ "global-fallback".data) →
          find_in_blocks doc.blocks f = (some v', some S) →
          (tier_search doc f).1 = none ∨
          ∃ q, (tier_search doc f).1 = some (.num q) ∧
            (f = .amount_due → 50 < q ∧ q < 1000000) ∧
            (f = .credit_limit → 1000 < q ∧ q < 50000000) ∧
            (f = .credit_limit → (tier_search doc f).2 = some "global".data →
              q < 5000000) ∧
            (f = .credit_limit →
              (tier_search doc f).2 = some "global-fallback".data →
              5000 < q ∧ q < 1000000) ∧
            (f = .amount_due →
              (tier_search doc f).2 = some "global-fallback".data →
              100 < q ∧ q < 500000) := by
        intro S hS heq2
        rw [heq2] at hfind
        obtain ⟨hv, hs⟩ := Prod.mk.injEq .. ▸ hfind
        obtain rfl : v' = v := by simpa using hv
        obtain ⟨q, rfl, ha, hc'⟩ := extract_by_type_amount_sound hf hc
        rw [postAmount_num] at heq
        obtain ⟨hg1, hg2⟩ := notg _ s hS hs
        have hsnd : (tier_search doc f).2 = s := by rw [heq]
        exact Or.inr ⟨q, by rw [heq], fun h' => (ha h').imp id id,
          fun h' => (hc' h').imp id id,
          fun _ h2 => absurd (hsnd ▸ h2) hg1,
          fun _ h2 => absurd (hsnd ▸ h2) hg2,
          fun _ h2 => absurd (hsnd ▸ h2) hg2⟩
      rcases hcase with ⟨heq2, _⟩ | ⟨heq2, _⟩
      · exact step _ (tag_ne_globals (show 'b' ≠ 'g' by decide) "lock:".data tag) heq2
      · exact step _
          (tag_ne_globals (show 'b' ≠ 'g' by decide) "lock-near:".data tag) heq2
  · rcases global_search_shape doc.rawText f with h | ⟨v, s, h, pa, pc, pcg, pcf, paf⟩
    · rw [h, postAmount_none] at heq
      exact Or.inl (by rw [heq])
    · rw [h] at heq
      have hnum : ∃ q, v = .num q := by
        rcases hf with hf | hf
        · obtain ⟨q, hq, -⟩ := pa hf; exact ⟨q, hq⟩
        · obtain ⟨q, hq, -⟩ := pc hf; exact ⟨q, hq⟩
      obtain ⟨q, rfl⟩ := hnum
      rw [postAmount_num] at heq
      refine Or.inr ⟨q, by rw [heq], ?_, ?_, ?_, ?_, ?_⟩
      · intro hf'
        obtain ⟨q', hq', h1, h2⟩ := pa hf'
        obtain rfl : q = q' := by simpa using hq'
        exact ⟨h1, h2⟩
      · intro hf'
        obtain ⟨q', hq', h1, h2⟩ := pc hf'
        obtain rfl : q = q' := by simpa using hq'
        exact ⟨h1, h2⟩
      · intro hf' h2
        rw [heq] at h2
        simp only at h2
        obtain ⟨q', hq', hb⟩ := pcg hf' (by simpa using h2)
        obtain rfl : q = q' := by simpa using hq'
        exact hb
      · intro hf' h2
        rw [heq] at h2
        simp only at h2
        obtain ⟨q', hq', hb1, hb2⟩ := pcf hf' (by simpa using h2)
        obtain rfl : q = q' := by simpa using hq'
        exact ⟨hb1, hb2⟩
      · intro hf' h2
        rw [heq] at h2
        simp only at h2
        obtain ⟨q', hq', hb1, hb2⟩ := paf hf' (by simpa using h2)
        obtain rfl : q = q' := by simpa using hq'
        exact ⟨hb1, hb2⟩

/-- C2 (amended): a non-null `amount_due` always lies in
`(50, 1,000,000)`; a non-null `credit_limit` lies in `(1,000, 50,000,000)`
on the table/block tiers (the shared extractor's window), in
`(1,000, 5,000,000)` on the labeled global search, and in
`(5,000, 1,000,000)` on the summary-keyword global fallback. -/
theorem amount_value_windows (doc : Document) (exc : Field → Bool) :
    (∀ v, (extractExc doc exc).value .amount_due = some v →
      ∃ q, v = .num q ∧ 50 < q ∧ q < 1000000) ∧
    (∀ v, (extractExc doc exc).value .credit_limit = some v →
      ∃ q, v = .num q ∧ 1000 < q ∧ q < 50000000) ∧
    (∀ q, (extractExc doc exc).value .credit_limit = some (.num q) →
      (extractExc doc exc).pattern .credit_limit = some "global".data →
      1000 < q ∧ q < 5000000) ∧
    (∀ q, (extractExc doc exc).value .credit_limit = some (.num q) →
      (extractExc doc exc).pattern .credit_limit = some "global-fallback".data →
      5000 < q ∧ q < 1000000) ∧
    (∀ q, (extractExc doc exc).value .amount_due = some (.num q) →
      (extractExc doc exc).pattern .amount_due = some "global-fallback".data →
      100 < q ∧ q < 500000) := by
  have key : ∀ f, (f = .amount_due ∨ f = .credit_limit) → ∀ v,
      (extractExc doc exc).value f = some v →
      ∃ q, v = .num q ∧ (tier_search doc f).1 = some (.num q) ∧
        (f = .amount_due → 50 < q ∧ q < 1000000) ∧
        (f = .credit_limit → 1000 < q ∧ q < 50000000) ∧
        (f = .credit_limit → (tier_search doc f).2 = some "global".data →
          q < 5000000) ∧
        (f = .credit_limit →
          (tier_search doc f).2 = some "global-fallback".data →
          5000 < q ∧ q < 1000000) ∧
        (f = .amount_due → (tier_search doc f).2 = some "global-fallback".data →
          100 < q ∧ q < 500000) := by
    intro f hf v hv
    rw [extractExc_value] at hv
    by_cases hexc : exc f
    · rw [if_pos hexc] at hv; cases hv
    · rw [if_neg hexc] at hv
      rcases tier_amount_characterization doc f hf with h | ⟨q, hq, rest⟩
      · rw [h] at hv; cases hv
      · rw [hq] at hv
        obtain rfl : Value.num q = v := by simpa using hv
        exact ⟨q, rfl, hq, rest⟩
  have hpat : ∀ f, ¬ exc f → (extractExc doc exc).pattern f = (tier_search doc f).2 := by
    intro f hexc
    rw [extractExc_pattern, if_neg hexc]
  refine ⟨fun v hv => ?_, fun v hv => ?_, fun q hv hp => ?_, fun q hv hp => ?_,
    fun q hv hp => ?_⟩
  · obtain ⟨q, rfl, -, ha, -⟩ := key .amount_due (Or.inl rfl) v hv
    exact ⟨q, rfl, ha rfl⟩
  · obtain ⟨q, rfl, -, -, hc, -⟩ := key .credit_limit (Or.inr rfl) v hv
    exact ⟨q, rfl, hc rfl⟩
  · have hexc : ¬ exc .credit_limit := by
      intro he
      rw [extractExc_value, if_pos he] at hv
      cases hv
    obtain ⟨q', hq', -, -, hc, hg, -⟩ := key .credit_limit (Or.inr rfl) _ hv
    obtain rfl : q = q' := by simpa using hq'
    exact ⟨(hc rfl).1, hg rfl (by rw [← hpat _ hexc]; exact hp)⟩
  · have hexc : ¬ exc .credit_limit := by
      intro he
      rw [extractExc_value, if_pos he] at hv
      cases hv
    obtain ⟨q', hq', -, -, -, -, hg, -⟩ := key .credit_limit (Or.inr rfl) _ hv
    obtain rfl : q = q' := by simpa using hq'
    exact hg rfl (by rw [← hpat _ hexc]; exact hp)
  · have hexc : ¬ exc .amount_due := by
      intro he
      rw [extractExc_value, if_pos he] at hv
      cases hv
    obtain ⟨q', hq', -, -, -, -, -, hg⟩ := key .amount_due (Or.inl rfl) _ hv
    obtain rfl : q = q' := by simpa using hq'
    exact hg rfl (by rw [← hpat _ hexc]; exact hp)

theorem amount_value_windows_witness :
    (extractExc ⟨[], [], "credit limit 45,000".data⟩ (fun _ => false)).value
        .credit_limit = some (.num 45000) ∧
    (1000 : ℚ) < 45000 ∧ (45000 : ℚ) < 5000000 := by
  refine ⟨by decide, ?_⟩
  exact (amount_value_windows ⟨[], [], "credit limit 45,000".data⟩
    (fun _ => false)).2.2.1 45000 (by decide) (by decide)

/-- C9: in every result (exception paths included), a field's origin tag
is non-null exactly when the field's value is non-null. -/
theorem value_pattern_coupled (doc : Document) (exc : Field → Bool) (f : Field) :
    ((extractExc doc exc).value f).isSome ↔
      ((extractExc doc exc).pattern f).isSome := by
  rw [extractExc_value, extractExc_pattern]
  by_cases hexc : exc f
  · simp [hexc]
  · simp only [if_neg hexc]
    rcases tier_search_cases doc f with ⟨v, s, hfind, heq⟩ | ⟨v, s, hfind, heq⟩ | heq
    · rcases find_in_tables_sound doc.tables f with h | ⟨v', tag, h, c, hc⟩
      · rw [h] at hfind; simp at hfind
      · rw [h] at hfind
        obtain ⟨hv, hs⟩ := Prod.mk.injEq .. ▸ hfind
        obtain rfl : v' = v := by simpa using hv
        rw [heq, postAmount_of_extract _ hc, ← hs]
        simp
    · rcases find_in_blocks_sound doc.blocks f with
        h | ⟨v', b, tag, m, _, _, _, _, hcase⟩
      · rw [h] at hfind; simp at hfind
      · have hev : ∃ c, extract_by_type f c = some v' := by
          rcases hcase with ⟨_, he⟩ | ⟨_, he⟩
          · exact ⟨b.text, he⟩
          · exact he
        obtain ⟨c, hc⟩ := hev
        rcases hcase with ⟨heq2, _⟩ | ⟨heq2, _⟩ <;>
        · rw [heq2] at hfind
          obtain ⟨hv, hs⟩ := Prod.mk.injEq .. ▸ hfind
          obtain rfl : v' = v := by simpa using hv
          rw [heq, postAmount_of_extract _ hc, ← hs]
          simp
    · rcases global_search_shape doc.rawText f with h | ⟨v, s, h, pa, pc, -⟩
      · rw [h, postAmount_none] at heq
        rw [heq]
        simp
      · rw [h] at heq
        by_cases hf : f = .amount_due ∨ f = .credit_limit
        · have hnum : ∃ q, v = .num q := by
            rcases hf with hf | hf
            · obtain ⟨q, hq, -⟩ := pa hf; exact ⟨q, hq⟩
            · obtain ⟨q, hq, -⟩ := pc hf; exact ⟨q, hq⟩
          obtain ⟨q, rfl⟩ := hnum
          rw [postAmount_num] at heq
          rw [heq]
          simp
        · push_neg at hf
          rw [postAmount_not_amount hf.1 hf.2] at heq
          rw [heq]
          simp

/-- C4 (amended): every value returned by the block search stems from a
label-matching block that is never a noise block, and on the same-block
(`block:`) path that non-noise block itself supplies the value; the
look-ahead (`block-near:`) evidence block, however, is not noise-checked. -/
theorem block_label_never_noise (blocks : List Block) (f : Field)
    (v : Value) (s : List Char)
    (h : find_in_blocks blocks f = (some v, some s)) :
    ∃ b tag m, b ∈ blocks ∧ noisePattern b.text = false ∧
      (tag, m) ∈ FIELD_LABELS f ∧ m (lowerStr b.text) = true ∧
      (s = "block:".data ++ tag → extract_by_type f b.text = some v) ∧
      (s = "block:".data ++ tag ∨ s = "block-near:".data ++ tag) := by
  rcases find_in_blocks_sound blocks f with h0 | ⟨v', b, tag, m, hb, hn, hmem, hm, hcase⟩
  · rw [h0] at h; cases h
  · rcases hcase with ⟨heq, he⟩ | ⟨heq, he⟩
    · rw [heq] at h
      obtain ⟨hv, hs⟩ := Prod.mk.injEq .. ▸ h
      obtain rfl : v' = v := by simpa using hv
      obtain rfl : s = "block:".data ++ tag := by simpa using hs.symm
      exact ⟨b, tag, m, hb, hn, hmem, hm, fun _ => he, Or.inl rfl⟩
    · rw [heq] at h
      obtain ⟨hv, hs⟩ := Prod.mk.injEq .. ▸ h
      obtain rfl : v' = v := by simpa using hv
      obtain rfl : s = "block-near:".data ++ tag := by simpa using hs.symm
      exact ⟨b, tag, m, hb, hn, hmem, hm,
        fun hcontra => absurd hcontra.symm (block_tags_ne _ _), Or.inr rfl⟩

theorem block_label_never_noise_witness :
    ∃ b tag m, b ∈ [(⟨"credit limit 2,00,000".data, 0, 0, 10, 10, 0⟩ : Block)] ∧
      noisePattern b.text = false ∧
      (tag, m) ∈ FIELD_LABELS .credit_limit ∧ m (lowerStr b.text) = true ∧
      ("block:credit\\s+limit".data = "block:".data ++ tag →
        extract_by_type .credit_limit b.text = some (.num 200000)) ∧
      ("block:credit\\s+limit".data = "block:".data ++ tag ∨
        "block:credit\\s+limit".data = "block-near:".data ++ tag) :=
  block_label_never_noise [⟨"credit limit 2,00,000".data, 0, 0, 10, 10, 0⟩]
    .credit_limit (.num 200000) "block:credit\\s+limit".data (by decide)

/-! ### The checked table search never faults -/

theorem rightCellsChecked_range (row : List (List Char)) :
    ∀ n a, a + n = row.length →
      rightCellsChecked row (List.range' a n) = .ok (row.drop a) := by
  intro n
  induction n with
  | zero =>
    intro a ha
    have : a = row.length := by omega
    subst this
    simp [rightCellsChecked, List.range']
  | succ n ih =>
    intro a ha
    have hlt : a < row.length := by omega
    rw [List.range'_succ]
    simp only [rightCellsChecked]
    rw [List.get?_eq_getElem?, List.getElem?_eq_getElem hlt, ih (a + 1) (by omega)]
    simp only [Except.map]
    rw [← List.drop_eq_getElem_cons hlt]

theorem rightCellsChecked_ok (row : List (List Char)) (c : ℕ) :
    rightCellsChecked row (List.range' (c + 1) (row.length - (c + 1))) =
      .ok (row.drop (c + 1)) := by
  by_cases h : c + 1 ≤ row.length
  · exact rightCellsChecked_range row _ _ (by omega)
  · have h0 : row.length - (c + 1) = 0 := by omega
    rw [h0, List.drop_eq_nil_of_le (by omega)]
    simp [List.range', rightCellsChecked]

theorem belowCellsChecked_range (table : Table) (cellIdx : ℕ) :
    ∀ n a, a + n = table.length →
      belowCellsChecked table cellIdx (List.range' a n) =
        .ok ((table.drop a).filterMap
          (fun r => if cellIdx < r.length then some (r.getD cellIdx []) else none)) := by
  intro n
  induction n with
  | zero =>
    intro a ha
    have : a = table.length := by omega
    subst this
    simp [belowCellsChecked, List.range', List.drop_length]
  | succ n ih =>
    intro a ha
    have hlt : a < table.length := by omega
    rw [List.range'_succ]
    simp only [belowCellsChecked]
    rw [List.get?_eq_getElem?, List.getElem?_eq_getElem hlt,
      List.drop_eq_getElem_cons hlt, List.filterMap_cons]
    dsimp only
    by_cases hc : cellIdx < table[a].length
    · simp only [if_pos hc, List.get?_eq_getElem?, List.getElem?_eq_getElem hc,
        ih (a + 1) (by omega), Except.map]
      simp [List.getD_eq_getElem?_getD, List.getElem?_eq_getElem hc]
    · simp only [if_neg hc, ih (a + 1) (by omega)]

theorem candsChecked_ok (table : Table) (row : List (List Char)) (rowIdx cellIdx : ℕ) :
    candsChecked table row rowIdx cellIdx =
      .ok (row.drop (cellIdx + 1) ++ belowCells table rowIdx cellIdx) := by
  unfold candsChecked belowCells
  by_cases h : rowIdx + 1 ≤ table.length
  · rw [rightCellsChecked_ok, belowCellsChecked_range table cellIdx _ _ (by omega)]
    rfl
  · have h0 : table.length - (rowIdx + 1) = 0 := by omega
    have hdrop : table.drop (rowIdx + 1) = [] :=
      List.drop_eq_nil_of_le (by omega)
    rw [rightCellsChecked_ok, h0, hdrop]
    simp [List.range', belowCellsChecked, Except.bind, bind, pure, Except.pure]

theorem tableCellLoopChecked_ok (f : Field) (table : Table) (rowIdx : ℕ)
    (row : List (List Char)) :
    ∀ cells cellIdx, tableCellLoopChecked f table rowIdx row cellIdx cells =
      .ok (tableCellLoop f table rowIdx row cellIdx cells) := by
  intro cells
  induction cells with
  | nil => intro _; rfl
  | cons cell rest ih =>
    intro cellIdx
    simp only [tableCellLoopChecked, tableCellLoop, candsChecked_ok]
    rcases htp : tablePatLoop f (lowerStr cell)
        (row.drop (cellIdx + 1) ++ belowCells table rowIdx cellIdx)
        (FIELD_LABELS f) with ⟨v, s⟩
    cases v <;> simp [htp, ih (cellIdx + 1), Except.bind, bind, pure, Except.pure]

theorem tableRowLoopChecked_ok (f : Field) (table : Table) :
    ∀ rows rowIdx, tableRowLoopChecked f table rowIdx rows =
      .ok (tableRowLoop f table rowIdx rows) := by
  intro rows
  induction rows with
  | nil => intro _; rfl
  | cons row rest ih =>
    intro rowIdx
    simp only [tableRowLoopChecked, tableRowLoop, tableCellLoopChecked_ok]
    rcases htp : tableCellLoop f table rowIdx row 0 row with ⟨v, s⟩
    cases v <;> simp [htp, ih (rowIdx + 1), Except.bind, bind, pure, Except.pure]

theorem find_in_tables_checked_ok (tables : List Table) (f : Field) :
    find_in_tables_checked tables f = .ok (find_in_tables tables f) := by
  induction tables with
  | nil => rfl
  | cons table rest ih =>
    simp only [find_in_tables_checked, find_in_tables, tableRowLoopChecked_ok]
    rcases htp : tableRowLoop f table 0 table with ⟨v, s⟩
    cases v <;> simp [htp, ih, Except.bind, bind, pure, Except.pure]

/-- C10: the table search is total on every table shape — with every
indexed cell access routed through a fault-checked `List.get?`, the
search never errors (ragged rows, empty rows, and empty tables included)
and returns either null or a value validated by the per-field extractor. -/
theorem table_search_total (tables : List Table) (f : Field) :
    find_in_tables_checked tables f = .ok (find_in_tables tables f) ∧
    (∀ v s, find_in_tables tables f = (some v, s) →
      ∃ c, extract_by_type f c = some v) := by
  refine ⟨find_in_tables_checked_ok tables f, fun v s h => ?_⟩
  rcases find_in_tables_sound tables f with h0 | ⟨v', tag, h0, c, hc⟩
  · rw [h0] at h
    cases h
  · rw [h0] at h
    obtain ⟨hv, -⟩ := Prod.mk.injEq .. ▸ h
    obtain rfl : v' = v := by simpa using hv
    exact ⟨c, hc⟩

theorem table_search_total_witness :
    find_in_tables_checked [[["amount due".data, "extra".data], [],
        ["1,234".data, "y".data]]] .amount_due =
      .ok (find_in_tables [[["amount due".data, "extra".data], [],
        ["1,234".data, "y".data]]] .amount_due) ∧
    ∃ c, extract_by_type .amount_due c = some (.num 1234) :=
  ⟨(table_search_total _ .amount_due).1,
    (table_search_total [[["amount due".data, "extra".data], [],
        ["1,234".data, "y".data]]] .amount_due).2 (.num 1234)
      (some ("table:amount\\s+due".data)) (by decide)⟩

/-- C5: when the raw text contains a `statement period` label and the
1000-character window after it yields at least two parseable
`dd/mm/yyyy` dates, the global search returns the two chronologically
earliest valid dates joined as `"date1 to date2"`, earliest first
regardless of their order in the text: the returned pair heads a
permutation of the valid-date list in which the first date is a minimum
of the whole list and the second a minimum of the remainder. -/
theorem statement_period_two_earliest (raw : List Char)
    (h1 : (spSnippet raw).isSome)
    (h2 : 2 ≤ (spValidDates raw).length) :
    ∃ d1 d2 rest, global_search raw .statement_period =
        (some (.str (d1.2 ++ " to ".data ++ d2.2)), some "global".data) ∧
      List.Perm (spValidDates raw) (d1 :: d2 :: rest) ∧
      d1.1 ≤ d2.1 ∧ (∀ x ∈ rest, d2.1 ≤ x.1) ∧
      (∀ x ∈ spValidDates raw, d1.1 ≤ x.1) := by
  haveI hto : IsTotal (ℕ × List Char) (fun x y => x.1 ≤ y.1) :=
    ⟨fun a b => Nat.le_total a.1 b.1⟩
  haveI htr : IsTrans (ℕ × List Char) (fun x y => x.1 ≤ y.1) :=
    ⟨fun _ _ _ hab hbc => Nat.le_trans hab hbc⟩
  have hperm : List.Perm (spSorted raw) (spValidDates raw) :=
    List.perm_insertionSort _ _
  have hsorted : List.Sorted (fun x y : ℕ × List Char => x.1 ≤ y.1) (spSorted raw) :=
    List.sorted_insertionSort _ _
  have hlen : 2 ≤ (spSorted raw).length := by
    rw [hperm.length_eq]
    exact h2
  obtain ⟨snip, hsnip⟩ := Option.isSome_iff_exists.1 h1
  rcases hs : spSorted raw with _ | ⟨a, _ | ⟨b, rest⟩⟩
  · rw [hs] at hlen; simp at hlen
  · rw [hs] at hlen; simp at hlen
  · rw [hs] at hperm hsorted
    rw [List.sorted_cons] at hsorted
    obtain ⟨ha, hsorted'⟩ := hsorted
    rw [List.sorted_cons] at hsorted'
    obtain ⟨hb, -⟩ := hsorted'
    refine ⟨a, b, rest, ?_, hperm.symm, ha b (by simp), fun x hx => hb x hx, ?_⟩
    · show globalStatementPeriod raw = _
      unfold globalStatementPeriod
      rw [hsnip]
      rw [if_pos (by rw [hs]; simpa using hlen), hs]
    · intro x hx
      have hx' : x = a ∨ x ∈ b :: rest := List.mem_cons.1 (hperm.mem_iff.2 hx)
      rcases hx' with rfl | hx'
      · exact le_refl _
      · exact ha x hx'

theorem statement_period_two_earliest_witness :
    global_search "statement period 15/10/2021 17/09/2021".data .statement_period =
      (some (.str "17/09/2021 to 15/10/2021".data), some "global".data) ∧
    ∃ d1 d2 rest,
      global_search "statement period 15/10/2021 17/09/2021".data .statement_period =
        (some (.str (d1.2 ++ " to ".data ++ d2.2)), some "global".data) ∧
      List.Perm (spValidDates "statement period 15/10/2021 17/09/2021".data)
        (d1 :: d2 :: rest) ∧
      d1.1 ≤ d2.1 ∧ (∀ x ∈ rest, d2.1 ≤ x.1) ∧
      (∀ x ∈ spValidDates "statement period 15/10/2021 17/09/2021".data,
        d1.1 ≤ x.1) :=
  ⟨by decide,
    statement_period_two_earliest "statement period 15/10/2021 17/09/2021".data
      (by decide) (by decide)⟩

/-- C6 counterexample: the per-candidate due-date extractor uses one
alternation regex, so the leftmost match wins; on a candidate containing
`immediate` payment-due phrasing with a date occurring earlier in the
text, the resolved value is the date, not `Immediate`. -/
theorem due_date_immediate_counterexample :
    extract_by_type .due_date "payment due date 04/11/2021 immediate".data =
      some (.str "04/11/2021".data) ∧
    (searchFirst imm2At "payment due date 04/11/2021 immediate".data.length
        "payment due date 04/11/2021 immediate".data).isSome = true ∧
    extract_by_type .due_date "payment due date 04/11/2021 immediate".data ≠
      some (.str "Immediate".data) := by
  refine ⟨by decide, by decide, by decide⟩

/-- C6 (amended): in the global search tier, the `immediate` patterns are
checked before every date pattern, so whenever the raw text matches an
immediate payment-due phrasing the global due-date result is
`Immediate`, even when date patterns are also present; in the
per-candidate extractor used by the table and block tiers the leftmost
match wins instead. -/
theorem global_due_date_immediate_priority (raw : List Char)
    (h : (searchFirst imm1At raw.length raw).isSome ∨
         (searchFirst imm2At raw.length raw).isSome) :
    global_search raw .due_date = (some (.str "Immediate".data), some "global".data) := by
  show globalDueDate raw = _
  unfold globalDueDate
  rcases h1 : searchFirst imm1At raw.length raw with _ | u
  · rcases h2 : searchFirst imm2At raw.length raw with _ | u
    · rcases h with h | h
      · rw [h1] at h; simp at h
      · rw [h2] at h; simp at h
    · simp
  · simp

theorem global_due_date_immediate_priority_witness :
    ((searchFirst imm1At "due date 04/11/2021 but immediate".data.length
        "due date 04/11/2021 but immediate".data).isSome ∨
      (searchFirst imm2At "due date 04/11/2021 but immediate".data.length
        "due date 04/11/2021 but immediate".data).isSome) ∧
    global_search "due date 04/11/2021 but immediate".data .due_date =
      (some (.str "Immediate".data), some "global".data) :=
  ⟨Or.inr (by decide),
    global_due_date_immediate_priority "due date 04/11/2021 but immediate".data
      (Or.inr (by decide))⟩

/-- C2 counterexample: a table whose `Credit Limit` label is followed by
`10,000,000` resolves `credit_limit = 10000000.0` through the table tier,
although the claimed primary window requires `x < 5,000,000` (the
extractor's window for the table/block tiers is `1,000 < x < 50,000,000`). -/
theorem credit_limit_window_counterexample :
    (extract ⟨[[["Credit Limit".data, "10,000,000".data]]], [], []⟩).value
        .credit_limit = some (.num 10000000) ∧
    (extract ⟨[[["Credit Limit".data, "10,000,000".data]]], [], []⟩).pattern
        .credit_limit = some ("table:credit\\s+limit".data) ∧
    ¬ ((10000000 : ℚ) < 5000000) := by
  refine ⟨by decide, by decide, by norm_num⟩

/-- C4 counterexample: the look-ahead step of the block search does not
re-check the noise filter, so a noise block (here a `cashback` block) in
the same visual column supplies the returned value of the `block-near`
path. -/
theorem block_noise_lookahead_counterexample :
    find_in_blocks [⟨"Credit Limit".data, 0, 0, 10, 10, 0⟩,
        ⟨"cashback 50,000".data, 0, 20, 10, 30, 0⟩] .credit_limit =
      (some (.num 50000), some ("block-near:credit\\s+limit".data)) ∧
    noisePattern "cashback 50,000".data = true ∧
    extract_by_type .credit_limit "Credit Limit".data = none := by
  refine ⟨by decide, by decide, by decide⟩

/-! ### Utilities for the normalizer proof -/

theorem spanP_append (p : Char → Bool) : ∀ s : List Char,
    (spanP p s).1 ++ (spanP p s).2 = s := by
  intro s
  induction s with
  | nil => rfl
  | cons c rest ih =>
    cases hsp : spanP p rest with
    | mk r t =>
      rw [hsp] at ih
      simp only [spanP, hsp]
      split
      · simpa using ih
      · rfl

theorem spanP_fst_all (p : Char → Bool) : ∀ s : List Char,
    ∀ c ∈ (spanP p s).1, p c = true := by
  intro s
  induction s with
  | nil => simp [spanP]
  | cons c rest ih =>
    cases hsp : spanP p rest with
    | mk r t =>
      rw [hsp] at ih
      simp only [spanP, hsp]
      split
      · next hc =>
        intro d hd
        rcases List.mem_cons.1 hd with rfl | hd
        · exact hc
        · exact ih d hd
      · simp

theorem spanP_snd_head (p : Char → Bool) : ∀ s d t,
    (spanP p s).2 = d :: t → p d = false := by
  intro s
  induction s with
  | nil => simp [spanP]
  | cons c rest ih =>
    cases hsp : spanP p rest with
    | mk r t0 =>
      rw [hsp] at ih
      simp only [spanP, hsp]
      split
      · exact fun d t h => ih d t (by simpa using h)
      · next hc =>
        intro d t h
        obtain ⟨rfl, -⟩ := List.cons.injEq .. ▸ h
        simpa using hc

theorem containsAt_iff (pred : List Char → Bool) : ∀ s : List Char,
    containsAt pred s = true ↔ ∃ t, t <:+ s ∧ pred t = true := by
  intro s
  induction s with
  | nil =>
    simp only [containsAt]
    constructor
    · exact fun h => ⟨[], List.suffix_refl _, h⟩
    · rintro ⟨t, ht, h⟩
      rw [List.suffix_nil.1 ht] at h
      exact h
  | cons c rest ih =>
    simp only [containsAt, Bool.or_eq_true, ih]
    constructor
    · rintro (h | ⟨t, ht, h⟩)
      · exact ⟨c :: rest, List.suffix_refl _, h⟩
      · exact ⟨t, ht.trans (List.suffix_cons c rest), h⟩
    · rintro ⟨t, ht, h⟩
      rcases List.suffix_cons_iff.1 ht with rfl | ht
      · exact Or.inl h
      · exact Or.inr ⟨t, ht, h⟩

theorem hasSub_cons (p : List Char) (c : Char) (s : List Char) :
    hasSub p (c :: s) = (p.isPrefixOf (c :: s) || hasSub p s) := rfl

theorem hasSub_suffix_false {p t s : List Char} (hsuf : t <:+ s)
    (h : hasSub p s = false) : hasSub p t = false := by
  cases ht : hasSub p t with
  | false => rfl
  | true =>
    obtain ⟨u, hu, hp⟩ := (containsAt_iff _ t).1 ht
    have hs : hasSub p s = true := (containsAt_iff _ s).2 ⟨u, hu.trans hsuf, hp⟩
    rw [hs] at h
    cases h

theorem hasSub_of_prefix_suffix {p t s : List Char} (hsuf : t <:+ s)
    (hp : p.isPrefixOf t = true) : hasSub p s = true :=
  (containsAt_iff _ s).2 ⟨t, hsuf, hp⟩

theorem rThenDigit_tail {a : Char} {rest : List Char}
    (h : rThenDigit (a :: rest) = false) : rThenDigit rest = false := by
  cases rest with
  | nil => rfl
  | cons b r =>
    simp only [rThenDigit, Bool.or_eq_false_iff] at h
    exact h.2

theorem rThenDigit_cons_of {x : Char} {L : List Char}
    (h : rThenDigit L = true) : rThenDigit (x :: L) = true := by
  cases L with
  | nil => cases h
  | cons b r => simp [rThenDigit, h]

theorem rThenDigit_mid : ∀ (xs : List Char) {a b : Char} (ys : List Char),
    pairRD a b = true → rThenDigit (xs ++ a :: b :: ys) = true := by
  intro xs
  induction xs with
  | nil => intro a b ys h; simp [rThenDigit, h]
  | cons x xs ih =>
    intro a b ys h
    exact rThenDigit_cons_of (ih ys h)

theorem rThenDigit_of_suffix {t s : List Char} (hsuf : t <:+ s)
    (h : rThenDigit t = true) : rThenDigit s = true := by
  obtain ⟨pre, rfl⟩ := hsuf
  induction pre with
  | nil => exact h
  | cons a pre ih => exact rThenDigit_cons_of ih

theorem rThenDigit_append_false : ∀ (xs ys : List Char),
    rThenDigit xs = false → rThenDigit ys = false →
    (∀ l d, xs.getLast? = some l → ys.head? = some d → pairRD l d = false) →
    rThenDigit (xs ++ ys) = false := by
  intro xs
  induction xs with
  | nil => intro ys _ hy _; simpa using hy
  | cons x xs ih =>
    intro ys hx hy hb
    cases xs with
    | nil =>
      cases ys with
      | nil => rfl
      | cons y ys' =>
        simp only [List.singleton_append, rThenDigit]
        rw [hb x y rfl rfl]
        simpa using hy
    | cons x2 xs' =>
      simp only [List.cons_append, rThenDigit]
      simp only [rThenDigit, Bool.or_eq_false_iff] at hx
      rw [hx.1]
      simp only [Bool.false_or]
      exact ih ys hx.2 hy (fun l d hl hd => hb l d (by simpa using hl) hd)

theorem wsOk_tail {a : Char} {rest : List Char} (h : wsOk (a :: rest) = true) :
    wsOk rest = true := by
  cases rest with
  | nil => rfl
  | cons b r =>
    simp only [wsOk, Bool.and_eq_true] at h
    exact h.2

theorem wsOk_drop {s : List Char} (h : wsOk s = true) :
    ∀ n, wsOk (s.drop n) = true := by
  induction s with
  | nil => intro n; simp [wsOk]
  | cons a rest ih =>
    intro n
    cases n with
    | zero => exact h
    | succ n => exact ih (wsOk_tail h) n

theorem wsOk_suffix {t s : List Char} (hsuf : t <:+ s) (h : wsOk s = true) :
    wsOk t = true := by
  obtain ⟨pre, rfl⟩ := hsuf
  have := wsOk_drop h pre.length
  rwa [List.drop_left] at this

/-! ### Each normalizer step is a no-op under its invariant -/

theorem replaceAll_id {p : List Char} (r : List Char) : ∀ fuel s,
    hasSub p s = false → replaceAll p r fuel s = s := by
  intro fuel
  induction fuel with
  | zero => intro s _; rfl
  | succ fuel ih =>
    intro s h
    cases s with
    | nil => rfl
    | cons c rest =>
      rw [hasSub_cons, Bool.or_eq_false_iff] at h
      simp only [replaceAll]
      rw [if_neg (by rw [h.1]; exact Bool.false_ne_true), ih rest h.2]

theorem hasSub_singleton_false {x : Char} {s : List Char} (hx : x ∉ s) :
    hasSub [x] s = false := by
  cases h : hasSub [x] s with
  | false => rfl
  | true =>
    obtain ⟨t, ht, hp⟩ := (containsAt_iff _ s).1 h
    cases t with
    | nil => simp [List.isPrefixOf] at hp
    | cons a t' =>
      have hxa : x = a := by
        simpa [List.isPrefixOf] using hp
      exact absurd (ht.subset (hxa ▸ List.mem_cons_self a t')) hx

theorem ws1_some {s t : List Char} (h : ws1 s = some t) :
    t = (spanP pySpace s).2 ∧ (spanP pySpace s).1 ≠ [] := by
  cases hsp : spanP pySpace s with
  | mk run t0 =>
    simp only [ws1, hsp] at h
    split at h
    · cases h
    · next hrun =>
      exact ⟨(Option.some.inj h).symm, by simpa [List.isEmpty_iff] using hrun⟩

theorem spanP_snd_suffix (p : Char → Bool) (s : List Char) :
    (spanP p s).2 <:+ s :=
  ⟨(spanP p s).1, spanP_append p s⟩

theorem matchInRs_hasSub {s r : List Char} (hm : matchInRs s = some r) :
    hasSub "Rs.".data s = true := by
  by_cases hin : "(in".data.isPrefixOf s = true
  · unfold matchInRs at hm
    rw [if_pos hin] at hm
    cases hws : ws1 (s.drop 3) with
    | none =>
      simp only [hws] at hm
      cases hm
    | some r1 =>
      simp only [hws] at hm
      by_cases hpre : "Rs.)".data.isPrefixOf r1 = true
      · obtain ⟨hr1, -⟩ := ws1_some hws
        have hsuf : r1 <:+ s :=
          (hr1 ▸ spanP_snd_suffix pySpace (s.drop 3)).trans (List.drop_suffix 3 s)
        have hpre' : "Rs.".data.isPrefixOf r1 = true := by
          have h1 : "Rs.".data <+: "Rs.)".data := by decide
          have h2 : "Rs.)".data <+: r1 := List.isPrefixOf_iff_prefix.1 hpre
          exact List.isPrefixOf_iff_prefix.2 (h1.trans h2)
        exact hasSub_of_prefix_suffix hsuf hpre'
      · rw [if_neg hpre] at hm
        cases hm
  · unfold matchInRs at hm
    rw [if_neg hin] at hm
    cases hm

theorem removeInRs_id : ∀ fuel s, hasSub "Rs.".data s = false →
    removeInRs fuel s = s := by
  intro fuel
  induction fuel with
  | zero => intro s _; rfl
  | succ fuel ih =>
    intro s h
    cases s with
    | nil => rfl
    | cons c rest =>
      cases hm : matchInRs (c :: rest) with
      | some r => rw [matchInRs_hasSub hm] at h; cases h
      | none =>
        rw [hasSub_cons, Bool.or_eq_false_iff] at h
        simp only [removeInRs, hm]
        rw [ih rest h.2]

theorem rCurrMatch_rThenDigit {s : List Char} {w r : List Char}
    (hm : rCurrMatch s = some (w, r)) : rThenDigit s = true := by
  unfold rCurrMatch at hm
  cases hsp : spanP pySpace s with
  | mk w0 r0 =>
    rw [hsp] at hm
    rcases r0 with _ | ⟨c, _ | ⟨d, rest⟩⟩
    · cases hm
    · cases hm
    · simp only at hm
      split at hm
      · next hpair =>
        have hs : s = w0 ++ c :: d :: rest := by
          rw [← spanP_append pySpace s, hsp]
        rw [hs]
        exact rThenDigit_mid w0 rest hpair
      · cases hm

theorem subRCurr_id : ∀ fuel s, rThenDigit s = false → subRCurr fuel s = s := by
  intro fuel
  induction fuel with
  | zero => intro s _; rfl
  | succ fuel ih =>
    intro s h
    cases s with
    | nil => rfl
    | cons c rest =>
      cases hm : rCurrMatch (c :: rest) with
      | some pr =>
        obtain ⟨w, r⟩ := pr
        rw [rCurrMatch_rThenDigit hm] at h
        cases h
      | none =>
        simp only [subRCurr, hm]
        rw [ih rest (rThenDigit_tail h)]

theorem wsOk_head_ws {c : Char} {rest : List Char} (h : wsOk (c :: rest) = true)
    (hc : pySpace c = true) :
    c = ' ' ∧ (rest = [] ∨ ∃ d r, rest = d :: r ∧ pySpace d = false) := by
  cases rest with
  | nil =>
    simp only [wsOk, hc, Bool.not_true, Bool.false_or, decide_eq_true_eq] at h
    exact ⟨h, Or.inl rfl⟩
  | cons d r =>
    simp only [wsOk, hc, Bool.not_true, Bool.false_or, Bool.and_eq_true,
      decide_eq_true_eq, Bool.not_eq_true'] at h
    exact ⟨h.1.1, Or.inr ⟨d, r, rfl, h.1.2⟩⟩

theorem drMatch_some {w s r' : List Char} (hw : w ≠ [])
    (hm : drMatch w s = some r') :
    (spanP pySpace s).1 ≠ [] ∧ w.isPrefixOf (spanP pySpace s).2 = true ∧
      r' = (spanP pySpace s).2.drop w.length := by
  cases hsp : spanP pySpace s with
  | mk ws rem =>
    simp only [drMatch, hsp] at hm
    split at hm
    · cases hm
    · next hrun =>
      split at hm
      · next hpre =>
        rw [Bool.and_eq_true] at hpre
        exact ⟨by simpa [List.isEmpty_iff] using hrun, hpre.1,
          (Option.some.inj hm).symm⟩
      · cases hm

theorem subWordSpace_id (w : List Char) (hw : w ≠ []) : ∀ fuel s,
    wsOk s = true → subWordSpace w fuel s = s := by
  intro fuel
  induction fuel with
  | zero => intro s _; rfl
  | succ fuel ih =>
    intro s h
    cases s with
    | nil => rfl
    | cons c rest =>
      cases hm : drMatch w (c :: rest) with
      | none =>
        simp only [subWordSpace, hm]
        rw [ih rest (wsOk_tail h)]
      | some r' =>
        obtain ⟨hrun, hpre, hr'⟩ := drMatch_some hw hm
        have hc : pySpace c = true := by
          by_contra hc
          rw [Bool.not_eq_true] at hc
          apply hrun
          simp [spanP, hc]
        obtain ⟨rfl, hrest⟩ := wsOk_head_ws h hc
        rcases hrest with rfl | ⟨d, r, rfl, hd⟩
        · exfalso
          rw [show spanP pySpace [' '] = ([' '], []) from by
            simp [spanP, show pySpace ' ' = true from by decide]] at hpre
          rcases w with _ | ⟨a, w'⟩
          · exact hw rfl
          · simp [List.isPrefixOf] at hpre
        · have hspan : spanP pySpace (' ' :: d :: r) = ([' '], d :: r) := by
            simp [spanP, show pySpace ' ' = true from by decide, hd]
          rw [hspan] at hpre hr'
          have hpre' : w.isPrefixOf (d :: r) = true := hpre
          have hr'' : r' = List.drop w.length (d :: r) := hr'
          obtain ⟨tail, htail⟩ := List.isPrefixOf_iff_prefix.1 hpre'
          rw [← htail, List.drop_left] at hr''
          subst hr''
          simp only [subWordSpace, hm]
          have hws' : wsOk r' = true := by
            apply wsOk_suffix _ h
            exact ⟨' ' :: w, by rw [List.cons_append, htail]⟩
          rw [ih r' hws', htail]

theorem collapseWs_id : ∀ s, wsOk s = true → collapseWs s = s := by
  intro s
  induction s with
  | nil => intro _; rfl
  | cons c rest ih =>
    intro h
    simp only [collapseWs]
    split
    · next hc =>
      obtain ⟨rfl, hrest⟩ := wsOk_head_ws h hc
      rcases hrest with rfl | ⟨d, r, rfl, hd⟩
      · rfl
      · show (if pySpace d = true then collapseWs (d :: r)
            else ' ' :: collapseWs (d :: r)) = ' ' :: d :: r
        rw [if_neg (by rw [hd]; exact Bool.false_ne_true), ih (wsOk_tail h)]
    · rw [ih (wsOk_tail h)]

/-! ### Head preservation and small facts about the step functions -/

theorem containsAt_cons (pred : List Char → Bool) (c : Char) (s : List Char) :
    containsAt pred (c :: s) = (pred (c :: s) || containsAt pred s) := rfl

theorem isPrefixOf_cons_split {a b : Char} {p t : List Char}
    (h : (a :: p).isPrefixOf (b :: t) = true) : a = b ∧ p.isPrefixOf t = true := by
  simpa [List.isPrefixOf] using h

theorem isPrefixOf_cons_false {a b : Char} (hab : a ≠ b) (p t : List Char) :
    (a :: p).isPrefixOf (b :: t) = false := by
  simp [List.isPrefixOf, hab]

theorem pairRD_space (l : Char) : pairRD l ' ' = false := by
  simp [pairRD, digitChar]

theorem pairRD_C (l : Char) : pairRD l 'C' = false := by
  simp [pairRD, digitChar]

theorem pairRD_space_left (d : Char) : pairRD ' ' d = false := by
  simp [pairRD]

theorem rThenDigit_cons_false {c : Char} {X : List Char}
    (hhead : ∀ d, X.head? = some d → pairRD c d = false)
    (hX : rThenDigit X = false) : rThenDigit (c :: X) = false := by
  cases X with
  | nil => rfl
  | cons d t =>
    simp only [rThenDigit, Bool.or_eq_false_iff]
    exact ⟨hhead d rfl, hX⟩

theorem rThenDigit_no_r {xs : List Char}
    (h : ∀ a ∈ xs, (a = 'r' || a = 'R') = false) : rThenDigit xs = false := by
  induction xs with
  | nil => rfl
  | cons a rest ih =>
    apply rThenDigit_cons_false
    · intro d _
      simp only [pairRD, h a (List.mem_cons_self a rest), Bool.false_and]
    · exact ih (fun b hb => h b (List.mem_cons_of_mem a hb))

theorem rCurrMatch_decomp {s w r : List Char} (hm : rCurrMatch s = some (w, r)) :
    ∃ rc, s = w ++ rc :: r ∧ w = (spanP pySpace s).1 ∧
      (rc = 'r' || rc = 'R') = true ∧
      (∀ d, r.head? = some d → (digitChar d || d = ',') = true) := by
  unfold rCurrMatch at hm
  cases hsp : spanP pySpace s with
  | mk w0 r0 =>
    rw [hsp] at hm
    rcases r0 with _ | ⟨c, _ | ⟨d, rest⟩⟩
    · cases hm
    · cases hm
    · simp only at hm
      split at hm
      · next hpair =>
        have h12 := Option.some.inj hm
        obtain ⟨hw, hr⟩ := Prod.mk.injEq .. ▸ h12
        subst hw
        subst hr
        rw [Bool.and_eq_true] at hpair
        refine ⟨c, ?_, rfl, hpair.1, ?_⟩
        · have hap := spanP_append pySpace s
          rw [hsp] at hap
          exact hap.symm
        · intro e he
          obtain rfl : d = e := by simpa using he
          exact hpair.2
      · cases hm

theorem subRCurr_head? : ∀ fuel s, (subRCurr fuel s).head? = s.head? ∨
    (subRCurr fuel s).head? = some 'C' := by
  intro fuel
  cases fuel with
  | zero => exact fun s => Or.inl rfl
  | succ fuel =>
    intro s
    cases s with
    | nil => exact Or.inl rfl
    | cons c rest =>
      cases hm : rCurrMatch (c :: rest) with
      | none => simp [subRCurr, hm]
      | some pr =>
        obtain ⟨w, r⟩ := pr
        obtain ⟨rc, hdec, hw, -, -⟩ := rCurrMatch_decomp hm
        simp only [subRCurr, hm]
        cases w with
        | nil => exact Or.inr rfl
        | cons a w' =>
          left
          have : c = a := by
            have := hdec
            simpa using congrArg List.head? this
          rw [this]
          rfl

theorem subWordSpace_head? (w : List Char) : ∀ fuel s,
    (subWordSpace w fuel s).head? = s.head? ∨
    (subWordSpace w fuel s).head? = some ' ' := by
  intro fuel
  cases fuel with
  | zero => exact fun s => Or.inl rfl
  | succ fuel =>
    intro s
    cases s with
    | nil => exact Or.inl rfl
    | cons c rest =>
      cases hm : drMatch w (c :: rest) with
      | none => simp [subWordSpace, hm]
      | some r' => simp [subWordSpace, hm]

theorem collapseWs_head? : ∀ s : List Char,
    (collapseWs s).head? =
      s.head?.map (fun d => if pySpace d = true then ' ' else d) := by
  intro s
  induction s with
  | nil => rfl
  | cons c rest ih =>
    by_cases hc : pySpace c = true
    · cases rest with
      | nil => simp [collapseWs, hc]
      | cons d r =>
        by_cases hd : pySpace d = true
        · rw [show collapseWs (c :: d :: r) = collapseWs (d :: r) from by
            simp [collapseWs, hc, hd]]
          rw [ih]
          simp [hd, hc]
        · rw [show collapseWs (c :: d :: r) = ' ' :: collapseWs (d :: r) from by
            simp [collapseWs, hc, hd]]
          simp [hc]
    · rw [Bool.not_eq_true] at hc
      rw [show collapseWs (c :: rest) = c :: collapseWs rest from by
          simp [collapseWs, hc]]
      simp [hc]

theorem replaceAll_head? (p : List Char) {repl : List Char} (hr : repl ≠ []) :
    ∀ fuel s,
    (replaceAll p repl fuel s).head? = s.head? ∨
    (replaceAll p repl fuel s).head? = repl.head? := by
  intro fuel
  cases fuel with
  | zero => exact fun s => Or.inl rfl
  | succ fuel =>
    intro s
    cases s with
    | nil => exact Or.inl rfl
    | cons c rest =>
      simp only [replaceAll]
      split
      · cases repl with
        | nil => exact absurd rfl hr
        | cons a rp => exact Or.inr rfl
      · exact Or.inl rfl

/-! ### Establishment of the normalizer invariants -/

theorem wsOk_cons_of_nonws {a : Char} {l : List Char} (ha : pySpace a = false)
    (hl : wsOk l = true) : wsOk (a :: l) = true := by
  cases l with
  | nil => simp [wsOk, ha]
  | cons b r => simp [wsOk, ha, hl]

theorem wsOk_cons_space {l : List Char} (hl : wsOk l = true)
    (hhead : ∀ d, l.head? = some d → pySpace d = false) :
    wsOk (' ' :: l) = true := by
  cases l with
  | nil => decide
  | cons b r => simp [wsOk, hl, hhead b rfl]

theorem collapseWs_wsOk : ∀ s, wsOk (collapseWs s) = true := by
  intro s
  induction s with
  | nil => rfl
  | cons c rest ih =>
    by_cases hc : pySpace c = true
    · cases rest with
      | nil =>
        rw [show collapseWs [c] = [' '] from by simp [collapseWs, hc]]
        decide
      | cons d r =>
        by_cases hd : pySpace d = true
        · rw [show collapseWs (c :: d :: r) = collapseWs (d :: r) from by
            simp [collapseWs, hc, hd]]
          exact ih
        · rw [show collapseWs (c :: d :: r) = ' ' :: collapseWs (d :: r) from by
            simp [collapseWs, hc, hd]]
          apply wsOk_cons_space ih
          intro e he
          rw [collapseWs_head?] at he
          have h2 : (if pySpace d = true then ' ' else d) = e := by simpa using he
          rw [← h2, if_neg hd]
          rwa [← Bool.not_eq_true]
    · rw [Bool.not_eq_true] at hc
      rw [show collapseWs (c :: rest) = c :: collapseWs rest from by
          simp [collapseWs, hc]]
      exact wsOk_cons_of_nonws hc ih

theorem subRCurr_rThenDigit : ∀ fuel s, s.length ≤ fuel →
    rThenDigit (subRCurr fuel s) = false := by
  intro fuel
  induction fuel with
  | zero =>
    intro s hs
    have : s = [] := List.eq_nil_of_length_eq_zero (Nat.le_zero.1 hs)
    subst this
    rfl
  | succ fuel ih =>
    intro s hs
    cases s with
    | nil => rfl
    | cons c rest =>
      cases hm : rCurrMatch (c :: rest) with
      | none =>
        simp only [subRCurr, hm]
        apply rThenDigit_cons_false
        · intro d hd
          rcases subRCurr_head? fuel rest with hh | hh
          · rw [hh] at hd
            by_cases hcr : (c = 'r' || c = 'R') = true
            · cases rest with
              | nil => cases hd
              | cons d0 rest2 =>
                obtain rfl : d = d0 := by simpa using hd.symm
                have hcw : pySpace c = false := by
                  rcases (by simpa using hcr : c = 'r' ∨ c = 'R') with rfl | rfl <;>
                    decide
                have hsp : spanP pySpace (c :: d :: rest2) = ([], c :: d :: rest2) := by
                  simp [spanP, hcw]
                unfold rCurrMatch at hm
                rw [hsp] at hm
                simp only at hm
                by_cases hp : ((c = 'r' || c = 'R') && (digitChar d || d = ',')) = true
                · rw [if_pos hp] at hm; cases hm
                · have hp' : ((c = 'r' || c = 'R') && (digitChar d || d = ',')) = false := by
                    rwa [← Bool.not_eq_true]
                  simpa [pairRD] using hp'
            · have hcr' : (c = 'r' || c = 'R') = false := by rwa [← Bool.not_eq_true]
              simp [pairRD, hcr']
          · rw [hh] at hd
            obtain rfl : 'C' = d := by simpa using hd
            exact pairRD_C c
        · exact ih rest (by simpa using Nat.le_of_succ_le_succ (by simpa using hs))
      | some pr =>
        obtain ⟨w, r⟩ := pr
        obtain ⟨rc, hdec, hw, hrc, hhead⟩ := rCurrMatch_decomp hm
        simp only [subRCurr, hm]
        have hrlen : r.length ≤ fuel := by
          have hs' : rest.length + 1 ≤ fuel + 1 := by simpa using hs
          have hlen : rest.length + 1 = w.length + (r.length + 1) := by
            have h := congrArg List.length hdec
            simpa [List.length_append] using h
          omega
        have hrec := ih r hrlen
        rw [List.append_assoc]
        have hinner : rThenDigit ("CURR ".data ++ subRCurr fuel r) = false := by
          apply rThenDigit_append_false
          · decide
          · exact hrec
          · intro l d hl hd
            have h0 : "CURR ".data.getLast? = some ' ' := by decide
            rw [h0] at hl
            obtain rfl : ' ' = l := by simpa using hl
            exact pairRD_space_left d
        apply rThenDigit_append_false
        · apply rThenDigit_no_r
          intro a ha
          have haw : pySpace a = true := by
            rw [hw] at ha
            exact spanP_fst_all pySpace _ a ha
          cases h : (a = 'r' || a = 'R') with
          | false => rfl
          | true =>
            exfalso
            rcases (by simpa using h : a = 'r' ∨ a = 'R') with rfl | rfl <;>
              simp [pySpace] at haw
        · exact hinner
        · intro l d hl hd
          obtain rfl : 'C' = d := by simpa using hd
          exact pairRD_C l

/-! ### Splitting a substring occurrence across an append -/

theorem Rs_data : "Rs.".data = ['R', 's', '.'] := rfl

theorem sdot_data : "s.".data = ['s', '.'] := rfl

theorem hasSub_append_split (p : List Char) : ∀ xs ys : List Char,
    hasSub p (xs ++ ys) = true →
    hasSub p xs = true ∨ hasSub p ys = true ∨
      ∃ p1 p2, p1 ++ p2 = p ∧ p1 ≠ [] ∧ p2 ≠ [] ∧ p1 <:+ xs ∧ p2 <+: ys := by
  intro xs
  induction xs with
  | nil =>
    intro ys h
    exact Or.inr (Or.inl (by simpa using h))
  | cons c xs ih =>
    intro ys h
    rw [List.cons_append, hasSub_cons, Bool.or_eq_true] at h
    rcases h with h | h
    · by_cases hlen : p.length ≤ (c :: xs).length
      · left
        have hpre : p <+: (c :: xs) ++ ys := by
          rw [List.cons_append]
          exact List.isPrefixOf_iff_prefix.1 h
        have hp2 : p <+: c :: xs :=
          List.prefix_of_prefix_length_le hpre (List.prefix_append _ _) hlen
        exact hasSub_of_prefix_suffix (List.suffix_refl _)
          (List.isPrefixOf_iff_prefix.2 hp2)
      · have hlt := Nat.lt_of_not_le hlen
        obtain ⟨t, ht⟩ := List.isPrefixOf_iff_prefix.1 h
        have ht' : p ++ t = (c :: xs) ++ ys :=
          ht.trans (by rw [List.cons_append])
        have hn : (c :: xs).length ≤ p.length := Nat.le_of_lt hlt
        have htake : p.take (c :: xs).length = c :: xs := by
          have h1 := congrArg (List.take (c :: xs).length) ht'
          rw [List.take_append_eq_append_take, Nat.sub_eq_zero_of_le hn,
            List.take_zero, List.append_nil, List.take_left] at h1
          exact h1
        refine Or.inr (Or.inr ⟨c :: xs, p.drop (c :: xs).length, ?_, by simp, ?_,
          List.suffix_refl _, ?_⟩)
        · conv_rhs => rw [← List.take_append_drop (c :: xs).length p]
          rw [htake]
        · intro hnil
          have hlen2 : (p.drop (c :: xs).length).length = 0 := by rw [hnil]; rfl
          rw [List.length_drop] at hlen2
          omega
        · have hcat : (c :: xs) ++ (p.drop (c :: xs).length ++ t) =
              (c :: xs) ++ ys := by
            calc (c :: xs) ++ (p.drop (c :: xs).length ++ t)
                = ((c :: xs) ++ p.drop (c :: xs).length) ++ t :=
                  (List.append_assoc _ _ _).symm
              _ = (p.take (c :: xs).length ++ p.drop (c :: xs).length) ++ t := by
                  rw [htake]
              _ = p ++ t := by rw [List.take_append_drop]
              _ = (c :: xs) ++ ys := ht'
          exact ⟨t, List.append_cancel_left hcat⟩
    · rcases ih ys h with h1 | h1 | ⟨p1, p2, hp, hn1, hn2, hs1, hs2⟩
      · left
        rw [hasSub_cons, h1, Bool.or_true]
      · exact Or.inr (Or.inl h1)
      · exact Or.inr (Or.inr
          ⟨p1, p2, hp, hn1, hn2, hs1.trans (List.suffix_cons c xs), hs2⟩)

theorem Rs_split : ∀ p1 p2 : List Char, p1 ++ p2 = "Rs.".data → p1 ≠ [] →
    p2 ≠ [] → (p1 = ['R'] ∧ p2 = ['s', '.']) ∨ (p1 = ['R', 's'] ∧ p2 = ['.']) := by
  intro p1 p2 h h1 h2
  rw [Rs_data] at h
  rcases p1 with _ | ⟨a, p1⟩
  · exact absurd rfl h1
  rcases p1 with _ | ⟨b, p1⟩
  · left
    simp only [List.cons_append, List.nil_append, List.cons.injEq] at h
    exact ⟨by rw [h.1], h.2⟩
  rcases p1 with _ | ⟨e, p1⟩
  · right
    simp only [List.cons_append, List.nil_append, List.cons.injEq] at h
    exact ⟨by rw [h.1, h.2.1], h.2.2⟩
  · exfalso
    simp only [List.cons_append, List.cons.injEq] at h
    exact h2 (List.append_eq_nil.1 h.2.2.2).2

theorem hasSub_Rs_append {xs ys : List Char}
    (hx : hasSub "Rs.".data xs = false) (hy : hasSub "Rs.".data ys = false)
    (h1 : ¬(['R'] <:+ xs)) (h2 : ¬(['R', 's'] <:+ xs)) :
    hasSub "Rs.".data (xs ++ ys) = false := by
  cases h : hasSub "Rs.".data (xs ++ ys) with
  | false => rfl
  | true =>
    exfalso
    rcases hasSub_append_split _ xs ys h with hc | hc | ⟨p1, p2, hp, hn1, hn2, hs1, hs2⟩
    · rw [hc] at hx; cases hx
    · rw [hc] at hy; cases hy
    · rcases Rs_split p1 p2 hp hn1 hn2 with ⟨rfl, rfl⟩ | ⟨rfl, rfl⟩
      · exact h1 hs1
      · exact h2 hs1

theorem hasSub_Rs_ws {w : List Char} (h : ∀ a ∈ w, pySpace a = true) :
    hasSub "Rs.".data w = false := by
  induction w with
  | nil => rfl
  | cons a w ih =>
    rw [hasSub_cons, Bool.or_eq_false_iff]
    constructor
    · cases hp : "Rs.".data.isPrefixOf (a :: w) with
      | false => rfl
      | true =>
        rw [Rs_data] at hp
        obtain ⟨ha, -⟩ := isPrefixOf_cons_split hp
        have haw := h a (List.mem_cons_self a w)
        rw [← ha] at haw
        exact absurd haw (by decide)
    · exact ih (fun b hb => h b (List.mem_cons_of_mem a hb))

theorem ws_no_R_suffix {w : List Char} (h : ∀ a ∈ w, pySpace a = true) :
    ¬(['R'] <:+ w) := fun hs =>
  absurd (h 'R' (hs.subset (by simp))) (by decide)

theorem ws_no_Rs_suffix {w : List Char} (h : ∀ a ∈ w, pySpace a = true) :
    ¬(['R', 's'] <:+ w) := fun hs =>
  absurd (h 'R' (hs.subset (by simp))) (by decide)

/-! ### Two-character prefix transfer through the step functions -/

theorem sdot_prefix_false_two {c : Char} {T : List Char}
    (h : c = 's' → T.head? ≠ some '.') :
    "s.".data.isPrefixOf (c :: T) = false := by
  rw [sdot_data]
  by_cases hc : c = 's'
  · subst hc
    cases T with
    | nil => rfl
    | cons d t =>
      have hd : ('.' == d) = false :=
        beq_eq_false_iff_ne.2 (fun he => h rfl (by rw [← he]; rfl))
      simp [List.isPrefixOf, hd]
  · exact isPrefixOf_cons_false (fun he => hc he.symm) _ _

theorem sdot_prefix_false_head {L : List Char} (h : L.head? ≠ some 's') :
    "s.".data.isPrefixOf L = false := by
  cases L with
  | nil => rfl
  | cons a t =>
    rw [sdot_data]
    refine isPrefixOf_cons_false ?_ _ _
    intro he
    exact h (by rw [← he]; rfl)

theorem sdot_not_prefix_tail {rest : List Char}
    (h : "s.".data.isPrefixOf ('s' :: rest) = false) : rest.head? ≠ some '.' := by
  intro hd
  cases rest with
  | nil => cases hd
  | cons d t =>
    obtain rfl : d = '.' := by simpa using hd
    rw [sdot_data] at h
    simp [List.isPrefixOf] at h

theorem no_Rs_head {rest : List Char}
    (h : "Rs.".data.isPrefixOf ('R' :: rest) = false) :
    "s.".data.isPrefixOf rest = false := by
  rw [Rs_data] at h
  rw [sdot_data]
  cases hp : (['s', '.'] : List Char).isPrefixOf rest with
  | false => rfl
  | true =>
    rw [show (['R', 's', '.'] : List Char).isPrefixOf ('R' :: rest) =
      (('R' == 'R') && (['s', '.'] : List Char).isPrefixOf rest) from rfl, hp] at h
    simp at h

theorem Rs_prefix_false_of {c : Char} {T : List Char}
    (h : c = 'R' → "s.".data.isPrefixOf T = false) :
    "Rs.".data.isPrefixOf (c :: T) = false := by
  rw [Rs_data]
  by_cases hc : c = 'R'
  · subst hc
    have h2 := h rfl
    rw [sdot_data] at h2
    rw [show (['R', 's', '.'] : List Char).isPrefixOf ('R' :: T) =
      (('R' == 'R') && (['s', '.'] : List Char).isPrefixOf T) from rfl, h2,
      Bool.and_false]
  · exact isPrefixOf_cons_false (fun he => hc he.symm) _ _

theorem pairRD_nd {a b : Char} (h : (digitChar b || b = ',') = false) :
    pairRD a b = false := by
  simp only [pairRD, h, Bool.and_false]

theorem replaceAll_no_sdot (fuel : ℕ) (s : List Char)
    (h : "s.".data.isPrefixOf s = false) :
    "s.".data.isPrefixOf (replaceAll "Rs.".data " CURR ".data fuel s) = false := by
  cases fuel with
  | zero => exact h
  | succ fuel =>
    cases s with
    | nil => exact h
    | cons c rest =>
      simp only [replaceAll]
      split
      · exact sdot_prefix_false_two (fun he => absurd he (by decide))
      · apply sdot_prefix_false_two
        intro hc hd
        subst hc
        rcases @replaceAll_head? "Rs.".data " CURR ".data (by decide) fuel rest
          with hh | hh
        · exact sdot_not_prefix_tail h (hh ▸ hd)
        · rw [hh] at hd
          exact absurd (Option.some.inj hd) (by decide)

theorem subRCurr_no_sdot (fuel : ℕ) (s : List Char)
    (h : "s.".data.isPrefixOf s = false) :
    "s.".data.isPrefixOf (subRCurr fuel s) = false := by
  cases fuel with
  | zero => exact h
  | succ fuel =>
    cases s with
    | nil => exact h
    | cons c rest =>
      cases hm : rCurrMatch (c :: rest) with
      | some pr =>
        obtain ⟨w, r⟩ := pr
        obtain ⟨rc, hdec, hw, -, -⟩ := rCurrMatch_decomp hm
        simp only [subRCurr, hm]
        cases w with
        | nil => exact sdot_prefix_false_two (fun he => absurd he (by decide))
        | cons a w2 =>
          apply sdot_prefix_false_two
          intro he
          exfalso
          have ha : pySpace a = true := by
            apply spanP_fst_all pySpace (c :: rest) a
            rw [← hw]
            exact List.mem_cons_self a w2
          rw [he] at ha
          exact absurd ha (by decide)
      | none =>
        simp only [subRCurr, hm]
        apply sdot_prefix_false_two
        intro hc hd
        subst hc
        rcases subRCurr_head? fuel rest with hh | hh
        · exact sdot_not_prefix_tail h (hh ▸ hd)
        · rw [hh] at hd
          exact absurd (Option.some.inj hd) (by decide)

theorem subWordSpace_no_sdot (w : List Char) (fuel : ℕ) (s : List Char)
    (h : "s.".data.isPrefixOf s = false) :
    "s.".data.isPrefixOf (subWordSpace w fuel s) = false := by
  cases fuel with
  | zero => exact h
  | succ fuel =>
    cases s with
    | nil => exact h
    | cons c rest =>
      cases hm : drMatch w (c :: rest) with
      | some r' =>
        simp only [subWordSpace, hm]
        exact sdot_prefix_false_two (fun he => absurd he (by decide))
      | none =>
        simp only [subWordSpace, hm]
        apply sdot_prefix_false_two
        intro hc hd
        subst hc
        rcases subWordSpace_head? w fuel rest with hh | hh
        · exact sdot_not_prefix_tail h (hh ▸ hd)
        · rw [hh] at hd
          exact absurd (Option.some.inj hd) (by decide)

theorem collapseWs_no_sdot : ∀ s : List Char, "s.".data.isPrefixOf s = false →
    "s.".data.isPrefixOf (collapseWs s) = false := by
  intro s
  induction s with
  | nil => intro h; exact h
  | cons c rest ih =>
    intro h
    by_cases hc : pySpace c = true
    · cases rest with
      | nil =>
        rw [show collapseWs [c] = [' '] from by simp [collapseWs, hc]]
        exact sdot_prefix_false_two (fun he => absurd he (by decide))
      | cons d r =>
        by_cases hd : pySpace d = true
        · rw [show collapseWs (c :: d :: r) = collapseWs (d :: r) from by
            simp [collapseWs, hc, hd]]
          apply ih
          apply sdot_prefix_false_head
          intro he
          obtain rfl : d = 's' := by simpa using he
          exact absurd hd (by decide)
        · rw [show collapseWs (c :: d :: r) = ' ' :: collapseWs (d :: r) from by
            simp [collapseWs, hc, hd]]
          exact sdot_prefix_false_two (fun he => absurd he (by decide))
    · rw [Bool.not_eq_true] at hc
      rw [show collapseWs (c :: rest) = c :: collapseWs rest from by
        simp [collapseWs, hc]]
      apply sdot_prefix_false_two
      intro hcs hd
      subst hcs
      rw [collapseWs_head?] at hd
      cases hr : rest.head? with
      | none => rw [hr] at hd; cases hd
      | some x =>
        rw [hr] at hd
        have hx : (if pySpace x = true then ' ' else x) = '.' := by simpa using hd
        by_cases hxs : pySpace x = true
        · rw [if_pos hxs] at hx
          exact absurd hx (by decide)
        · rw [if_neg hxs] at hx
          subst hx
          exact sdot_not_prefix_tail h hr

/-! ### No `Rs.` substring: establishment at step 3 and preservation -/

theorem replaceAll_no_Rs : ∀ fuel s, s.length ≤ fuel →
    hasSub "Rs.".data (replaceAll "Rs.".data " CURR ".data fuel s) = false := by
  intro fuel
  induction fuel with
  | zero =>
    intro s hs
    have : s = [] := List.eq_nil_of_length_eq_zero (Nat.le_zero.1 hs)
    subst this
    rfl
  | succ fuel ih =>
    intro s hs
    cases s with
    | nil => rfl
    | cons c rest =>
      have hs' : rest.length + 1 ≤ fuel + 1 := by simpa using hs
      simp only [replaceAll]
      split
      · have hlen : (List.drop "Rs.".data.length (c :: rest)).length ≤ fuel := by
          rw [List.length_drop]
          rw [show "Rs.".data.length = 3 from rfl]
          simp only [List.length_cons]
          omega
        exact hasSub_Rs_append (by decide) (ih _ hlen) (by decide) (by decide)
      · next hpre =>
        rw [hasSub_cons, Bool.or_eq_false_iff]
        refine ⟨?_, ih rest (Nat.le_of_succ_le_succ hs')⟩
        apply Rs_prefix_false_of
        intro hcR
        subst hcR
        apply replaceAll_no_sdot
        rw [Bool.not_eq_true] at hpre
        exact no_Rs_head hpre

theorem subRCurr_no_Rs : ∀ fuel s, hasSub "Rs.".data s = false →
    hasSub "Rs.".data (subRCurr fuel s) = false := by
  intro fuel
  induction fuel with
  | zero => intro s h; exact h
  | succ fuel ih =>
    intro s h
    cases s with
    | nil => exact h
    | cons c rest =>
      cases hm : rCurrMatch (c :: rest) with
      | some pr =>
        obtain ⟨w, r⟩ := pr
        obtain ⟨rc, hdec, hw, -, -⟩ := rCurrMatch_decomp hm
        simp only [subRCurr, hm]
        rw [List.append_assoc]
        have hwsp : ∀ a ∈ w, pySpace a = true := by
          intro a ha
          rw [hw] at ha
          exact spanP_fst_all pySpace _ a ha
        have hr : hasSub "Rs.".data r = false :=
          hasSub_suffix_false ⟨w ++ [rc], by rw [List.append_assoc]; exact hdec.symm⟩ h
        apply hasSub_Rs_append (hasSub_Rs_ws hwsp) ?_ (ws_no_R_suffix hwsp)
          (ws_no_Rs_suffix hwsp)
        exact hasSub_Rs_append (by decide) (ih r hr) (by decide) (by decide)
      | none =>
        simp only [subRCurr, hm]
        rw [hasSub_cons, Bool.or_eq_false_iff] at h
        rw [hasSub_cons, Bool.or_eq_false_iff]
        refine ⟨?_, ih rest h.2⟩
        apply Rs_prefix_false_of
        intro hcR
        subst hcR
        exact subRCurr_no_sdot fuel rest (no_Rs_head h.1)

theorem subWordSpace_no_Rs (w : List Char) (hw0 : w ≠ [])
    (hw1 : hasSub "Rs.".data (' ' :: w) = false)
    (hw2 : ¬(['R'] <:+ (' ' :: w))) (hw3 : ¬(['R', 's'] <:+ (' ' :: w))) :
    ∀ fuel s, hasSub "Rs.".data s = false →
    hasSub "Rs.".data (subWordSpace w fuel s) = false := by
  intro fuel
  induction fuel with
  | zero => intro s h; exact h
  | succ fuel ih =>
    intro s h
    cases s with
    | nil => exact h
    | cons c rest =>
      cases hm : drMatch w (c :: rest) with
      | some r' =>
        simp only [subWordSpace, hm]
        have hsuf : r' <:+ (c :: rest) := by
          obtain ⟨hrun, hpre, hr'⟩ := drMatch_some hw0 hm
          rw [hr']
          exact (List.drop_suffix _ _).trans (spanP_snd_suffix pySpace _)
        have hT := ih r' (hasSub_suffix_false hsuf h)
        rw [show ' ' :: (w ++ subWordSpace w fuel r') =
          (' ' :: w) ++ subWordSpace w fuel r' from rfl]
        exact hasSub_Rs_append hw1 hT hw2 hw3
      | none =>
        simp only [subWordSpace, hm]
        rw [hasSub_cons, Bool.or_eq_false_iff] at h
        rw [hasSub_cons, Bool.or_eq_false_iff]
        refine ⟨?_, ih rest h.2⟩
        apply Rs_prefix_false_of
        intro hcR
        subst hcR
        exact subWordSpace_no_sdot w fuel rest (no_Rs_head h.1)

theorem collapseWs_no_Rs : ∀ s, hasSub "Rs.".data s = false →
    hasSub "Rs.".data (collapseWs s) = false := by
  intro s
  induction s with
  | nil => intro h; exact h
  | cons c rest ih =>
    intro h
    rw [hasSub_cons, Bool.or_eq_false_iff] at h
    by_cases hc : pySpace c = true
    · cases rest with
      | nil =>
        rw [show collapseWs [c] = [' '] from by simp [collapseWs, hc]]
        decide
      | cons d r =>
        by_cases hd : pySpace d = true
        · rw [show collapseWs (c :: d :: r) = collapseWs (d :: r) from by
            simp [collapseWs, hc, hd]]
          exact ih h.2
        · rw [show collapseWs (c :: d :: r) = ' ' :: collapseWs (d :: r) from by
            simp [collapseWs, hc, hd]]
          rw [hasSub_cons, Bool.or_eq_false_iff]
          exact ⟨Rs_prefix_false_of (fun he => absurd he (by decide)), ih h.2⟩
    · rw [Bool.not_eq_true] at hc
      rw [show collapseWs (c :: rest) = c :: collapseWs rest from by
        simp [collapseWs, hc]]
      rw [hasSub_cons, Bool.or_eq_false_iff]
      refine ⟨?_, ih h.2⟩
      apply Rs_prefix_false_of
      intro hcR
      subst hcR
      exact collapseWs_no_sdot rest (no_Rs_head h.1)

/-! ### No currency-`r` trigger: preservation through steps 6, 7 and the
whitespace collapse -/

theorem subWordSpace_rThenDigit (w : List Char) (hw0 : w ≠ [])
    (hwrd : rThenDigit w = false) (hlast : w.getLast? = some 'r') :
    ∀ fuel s, rThenDigit s = false → rThenDigit (subWordSpace w fuel s) = false := by
  intro fuel
  induction fuel with
  | zero => intro s h; exact h
  | succ fuel ih =>
    intro s h
    cases s with
    | nil => exact h
    | cons c rest =>
      cases hm : drMatch w (c :: rest) with
      | none =>
        simp only [subWordSpace, hm]
        apply rThenDigit_cons_false
        · intro d hd
          rcases subWordSpace_head? w fuel rest with hh | hh
          · rw [hh] at hd
            cases rest with
            | nil => cases hd
            | cons d0 rest2 =>
              obtain rfl : d0 = d := by simpa using hd
              simp only [rThenDigit, Bool.or_eq_false_iff] at h
              exact h.1
          · rw [hh] at hd
            obtain rfl : ' ' = d := by simpa using hd
            exact pairRD_space c
        · exact ih rest (rThenDigit_tail h)
      | some r' =>
        obtain ⟨hrun, hpre, hr'⟩ := drMatch_some hw0 hm
        simp only [subWordSpace, hm]
        obtain ⟨tail, htail⟩ := List.isPrefixOf_iff_prefix.1 hpre
        have hr2 : r' = tail := by rw [hr', ← htail, List.drop_left]
        subst hr2
        have hsplit : c :: rest = (spanP pySpace (c :: rest)).1 ++ (w ++ r') := by
          rw [htail]
          exact (spanP_append pySpace (c :: rest)).symm
        have hr'rd : rThenDigit r' = false := by
          cases hx : rThenDigit r' with
          | false => rfl
          | true =>
            have hs : rThenDigit (c :: rest) = true :=
              rThenDigit_of_suffix
                ⟨(spanP pySpace (c :: rest)).1 ++ w,
                  by rw [List.append_assoc]; exact hsplit.symm⟩ hx
            rw [hs] at h
            exact Bool.noConfusion h
        have hT := ih r' hr'rd
        apply rThenDigit_cons_false
        · intro e _
          exact pairRD_space_left e
        · apply rThenDigit_append_false w _ hwrd hT
          intro l d hl hd
          rcases subWordSpace_head? w fuel r' with hh | hh
          · rw [hh] at hd
            cases hdig : (digitChar d || d = ',') with
            | false => exact pairRD_nd hdig
            | true =>
              exfalso
              obtain rfl : l = 'r' := by
                rw [hl] at hlast
                exact Option.some.inj hlast
              obtain ⟨winit, hwdec⟩ := List.getLast?_eq_some_iff.mp hl
              cases r' with
              | nil => cases hd
              | cons d0 r2 =>
                have heq : d0 = d := by simpa using hd
                have hcontra : rThenDigit (c :: rest) = true := by
                  rw [hsplit, hwdec]
                  rw [show (spanP pySpace (c :: rest)).1 ++
                      ((winit ++ ['r']) ++ d0 :: r2) =
                      ((spanP pySpace (c :: rest)).1 ++ winit) ++ 'r' :: d0 :: r2
                      from by simp [List.append_assoc]]
                  refine rThenDigit_mid _ r2 ?_
                  rw [heq]
                  simp [pairRD, hdig]
                rw [hcontra] at h
                exact Bool.noConfusion h
          · rw [hh] at hd
            obtain rfl : ' ' = d := by simpa using hd
            exact pairRD_space l

theorem collapseWs_rThenDigit : ∀ s, rThenDigit s = false →
    rThenDigit (collapseWs s) = false := by
  intro s
  induction s with
  | nil => intro h; exact h
  | cons c rest ih =>
    intro h
    by_cases hc : pySpace c = true
    · cases rest with
      | nil =>
        rw [show collapseWs [c] = [' '] from by simp [collapseWs, hc]]
        rfl
      | cons d r =>
        by_cases hd : pySpace d = true
        · rw [show collapseWs (c :: d :: r) = collapseWs (d :: r) from by
            simp [collapseWs, hc, hd]]
          exact ih (rThenDigit_tail h)
        · rw [show collapseWs (c :: d :: r) = ' ' :: collapseWs (d :: r) from by
            simp [collapseWs, hc, hd]]
          apply rThenDigit_cons_false
          · intro e _
            exact pairRD_space_left e
          · exact ih (rThenDigit_tail h)
    · rw [Bool.not_eq_true] at hc
      rw [show collapseWs (c :: rest) = c :: collapseWs rest from by
        simp [collapseWs, hc]]
      apply rThenDigit_cons_false
      · intro e he
        rw [collapseWs_head?] at he
        cases hr : rest.head? with
        | none => rw [hr] at he; cases he
        | some x =>
          rw [hr] at he
          have hx : (if pySpace x = true then ' ' else x) = e := by simpa using he
          by_cases hxs : pySpace x = true
          · rw [if_pos hxs] at hx
            rw [← hx]
            exact pairRD_space c
          · rw [if_neg hxs] at hx
            subst hx
            cases rest with
            | nil => cases hr
            | cons x0 r2 =>
              obtain rfl : x0 = x := by simpa using hr
              simp only [rThenDigit, Bool.or_eq_false_iff] at h
              exact h.1
      · exact ih (rThenDigit_tail h)

/-! ### Which characters each step can introduce -/

theorem replaceAll_mem (p repl : List Char) : ∀ fuel s y,
    y ∈ replaceAll p repl fuel s → y ∈ s ∨ y ∈ repl := by
  intro fuel
  induction fuel with
  | zero => intro s y hy; exact Or.inl hy
  | succ fuel ih =>
    intro s y hy
    cases s with
    | nil => exact Or.inl hy
    | cons c rest =>
      simp only [replaceAll] at hy
      split at hy
      · rcases List.mem_append.1 hy with hr | hr
        · exact Or.inr hr
        · rcases ih _ y hr with hh | hh
          · exact Or.inl (List.drop_subset _ _ hh)
          · exact Or.inr hh
      · rcases List.mem_cons.1 hy with rfl | hr
        · exact Or.inl (List.mem_cons_self _ _)
        · rcases ih rest y hr with hh | hh
          · exact Or.inl (List.mem_cons_of_mem _ hh)
          · exact Or.inr hh

theorem replaceAll_single_notMem {x : Char} (repl : List Char) (hx : x ∉ repl) :
    ∀ fuel s, s.length ≤ fuel → x ∉ replaceAll [x] repl fuel s := by
  intro fuel
  induction fuel with
  | zero =>
    intro s hs
    have : s = [] := List.eq_nil_of_length_eq_zero (Nat.le_zero.1 hs)
    subst this
    exact List.not_mem_nil x
  | succ fuel ih =>
    intro s hs
    cases s with
    | nil => exact List.not_mem_nil x
    | cons c rest =>
      have hs' : rest.length ≤ fuel := by
        have : rest.length + 1 ≤ fuel + 1 := by simpa using hs
        omega
      simp only [replaceAll]
      split
      · intro hy
        rcases List.mem_append.1 hy with hr | hr
        · exact hx hr
        · exact ih rest hs' hr
      · next hpre =>
        intro hy
        rcases List.mem_cons.1 hy with rfl | hr
        · apply hpre
          simp [List.isPrefixOf]
        · exact ih rest hs' hr

theorem subRCurr_mem : ∀ fuel s y, y ∈ subRCurr fuel s →
    y ∈ s ∨ y ∈ "CURR ".data := by
  intro fuel
  induction fuel with
  | zero => intro s y hy; exact Or.inl hy
  | succ fuel ih =>
    intro s y hy
    cases s with
    | nil => exact Or.inl hy
    | cons c rest =>
      cases hm : rCurrMatch (c :: rest) with
      | none =>
        simp only [subRCurr, hm] at hy
        rcases List.mem_cons.1 hy with rfl | hr
        · exact Or.inl (List.mem_cons_self _ _)
        · rcases ih rest y hr with hh | hh
          · exact Or.inl (List.mem_cons_of_mem _ hh)
          · exact Or.inr hh
      | some pr =>
        obtain ⟨w, r⟩ := pr
        obtain ⟨rc, hdec, hw, -, -⟩ := rCurrMatch_decomp hm
        simp only [subRCurr, hm] at hy
        rw [List.append_assoc] at hy
        rcases List.mem_append.1 hy with hr | hr
        · left
          rw [hdec]
          exact List.mem_append.2 (Or.inl hr)
        · rcases List.mem_append.1 hr with hr2 | hr2
          · exact Or.inr hr2
          · rcases ih r y hr2 with hh | hh
            · left
              rw [hdec]
              exact List.mem_append.2 (Or.inr (List.mem_cons_of_mem _ hh))
            · exact Or.inr hh

theorem subWordSpace_mem (w : List Char) (hw0 : w ≠ []) : ∀ fuel s y,
    y ∈ subWordSpace w fuel s → y ∈ s ∨ y = ' ' ∨ y ∈ w := by
  intro fuel
  induction fuel with
  | zero => intro s y hy; exact Or.inl hy
  | succ fuel ih =>
    intro s y hy
    cases s with
    | nil => exact Or.inl hy
    | cons c rest =>
      cases hm : drMatch w (c :: rest) with
      | none =>
        simp only [subWordSpace, hm] at hy
        rcases List.mem_cons.1 hy with rfl | hr
        · exact Or.inl (List.mem_cons_self _ _)
        · rcases ih rest y hr with hh | hh
          · exact Or.inl (List.mem_cons_of_mem _ hh)
          · exact Or.inr hh
      | some r' =>
        obtain ⟨hrun, hpre, hr'⟩ := drMatch_some hw0 hm
        simp only [subWordSpace, hm] at hy
        rcases List.mem_cons.1 hy with rfl | hr
        · exact Or.inr (Or.inl rfl)
        · rcases List.mem_append.1 hr with hr2 | hr2
          · exact Or.inr (Or.inr hr2)
          · rcases ih r' y hr2 with hh | hh
            · left
              have hsuf : r' <:+ (c :: rest) := by
                rw [hr']
                exact (List.drop_suffix _ _).trans (spanP_snd_suffix pySpace _)
              exact hsuf.subset hh
            · exact Or.inr hh

theorem collapseWs_mem : ∀ s y, y ∈ collapseWs s → y ∈ s ∨ y = ' ' := by
  intro s
  induction s with
  | nil => intro y hy; exact Or.inl hy
  | cons c rest ih =>
    intro y hy
    by_cases hc : pySpace c = true
    · cases rest with
      | nil =>
        rw [show collapseWs [c] = [' '] from by simp [collapseWs, hc]] at hy
        rcases List.mem_cons.1 hy with rfl | hr
        · exact Or.inr rfl
        · cases hr
      | cons d r =>
        by_cases hd : pySpace d = true
        · rw [show collapseWs (c :: d :: r) = collapseWs (d :: r) from by
            simp [collapseWs, hc, hd]] at hy
          rcases ih y hy with hh | hh
          · exact Or.inl (List.mem_cons_of_mem _ hh)
          · exact Or.inr hh
        · rw [show collapseWs (c :: d :: r) = ' ' :: collapseWs (d :: r) from by
            simp [collapseWs, hc, hd]] at hy
          rcases List.mem_cons.1 hy with rfl | hr
          · exact Or.inr rfl
          · rcases ih y hr with hh | hh
            · exact Or.inl (List.mem_cons_of_mem _ hh)
            · exact Or.inr hh
    · rw [Bool.not_eq_true] at hc
      rw [show collapseWs (c :: rest) = c :: collapseWs rest from by
        simp [collapseWs, hc]] at hy
      rcases List.mem_cons.1 hy with rfl | hr
      · exact Or.inl (List.mem_cons_self _ _)
      · rcases ih y hr with hh | hh
        · exact Or.inl (List.mem_cons_of_mem _ hh)
        · exact Or.inr hh

/-! ### The normalizer output satisfies every step's no-op invariant -/

theorem norm_wsOk (t : List Char) : wsOk (normalize_currency t) = true := by
  simp only [normalize_currency]
  exact collapseWs_wsOk _

theorem norm_inv_all (t : List Char) :
    rupeeChar ∉ normalize_currency t ∧ backtickChar ∉ normalize_currency t ∧
    hasSub "Rs.".data (normalize_currency t) = false ∧
    rThenDigit (normalize_currency t) = false := by
  simp only [normalize_currency]
  set t1 := replaceStr [rupeeChar] " CURR ".data t with ht1
  set t2 := replaceStr [backtickChar] " CURR ".data t1 with ht2
  set t3 := replaceStr "Rs.".data " CURR ".data t2 with ht3
  set t4 := removeInRs t3.length t3 with ht4
  set t5 := subRCurr t4.length t4 with ht5
  set t6 := subWordSpace "Dr".data t5.length t5 with ht6
  set t7 := subWordSpace "Cr".data t6.length t6 with ht7
  have h3 : hasSub "Rs.".data t3 = false := by
    rw [ht3]
    simp only [replaceStr]
    exact replaceAll_no_Rs t2.length t2 le_rfl
  have h4eq : t4 = t3 := by
    rw [ht4]
    exact removeInRs_id t3.length t3 h3
  have h4 : hasSub "Rs.".data t4 = false := by rw [h4eq]; exact h3
  have h5Rs : hasSub "Rs.".data t5 = false := by
    rw [ht5]
    exact subRCurr_no_Rs t4.length t4 h4
  have h6Rs : hasSub "Rs.".data t6 = false := by
    rw [ht6]
    exact subWordSpace_no_Rs "Dr".data (by decide) (by decide) (by decide)
      (by decide) t5.length t5 h5Rs
  have h7Rs : hasSub "Rs.".data t7 = false := by
    rw [ht7]
    exact subWordSpace_no_Rs "Cr".data (by decide) (by decide) (by decide)
      (by decide) t6.length t6 h6Rs
  have hORs : hasSub "Rs.".data (collapseWs t7) = false := collapseWs_no_Rs t7 h7Rs
  have h5rd : rThenDigit t5 = false := by
    rw [ht5]
    exact subRCurr_rThenDigit t4.length t4 le_rfl
  have h6rd : rThenDigit t6 = false := by
    rw [ht6]
    exact subWordSpace_rThenDigit "Dr".data (by decide) (by decide) (by decide)
      t5.length t5 h5rd
  have h7rd : rThenDigit t7 = false := by
    rw [ht7]
    exact subWordSpace_rThenDigit "Cr".data (by decide) (by decide) (by decide)
      t6.length t6 h6rd
  have hOrd : rThenDigit (collapseWs t7) = false := collapseWs_rThenDigit t7 h7rd
  have m1 : rupeeChar ∉ t1 := by
    rw [ht1]
    simp only [replaceStr]
    exact replaceAll_single_notMem _ (by decide) t.length t le_rfl
  have m2 : rupeeChar ∉ t2 := by
    rw [ht2]
    simp only [replaceStr]
    intro hy
    rcases replaceAll_mem _ _ _ _ _ hy with hh | hh
    · exact m1 hh
    · exact absurd hh (by decide)
  have b2 : backtickChar ∉ t2 := by
    rw [ht2]
    simp only [replaceStr]
    exact replaceAll_single_notMem _ (by decide) t1.length t1 le_rfl
  have m3 : rupeeChar ∉ t3 := by
    rw [ht3]
    simp only [replaceStr]
    intro hy
    rcases replaceAll_mem _ _ _ _ _ hy with hh | hh
    · exact m2 hh
    · exact absurd hh (by decide)
  have b3 : backtickChar ∉ t3 := by
    rw [ht3]
    simp only [replaceStr]
    intro hy
    rcases replaceAll_mem _ _ _ _ _ hy with hh | hh
    · exact b2 hh
    · exact absurd hh (by decide)
  have m4 : rupeeChar ∉ t4 := by rw [h4eq]; exact m3
  have b4 : backtickChar ∉ t4 := by rw [h4eq]; exact b3
  have m5 : rupeeChar ∉ t5 := by
    rw [ht5]
    intro hy
    rcases subRCurr_mem _ _ _ hy with hh | hh
    · exact m4 hh
    · exact absurd hh (by decide)
  have b5 : backtickChar ∉ t5 := by
    rw [ht5]
    intro hy
    rcases subRCurr_mem _ _ _ hy with hh | hh
    · exact b4 hh
    · exact absurd hh (by decide)
  have m6 : rupeeChar ∉ t6 := by
    rw [ht6]
    intro hy
    rcases subWordSpace_mem _ (by decide) _ _ _ hy with hh | hh | hh
    · exact m5 hh
    · exact absurd hh (by decide)
    · exact absurd hh (by decide)
  have b6 : backtickChar ∉ t6 := by
    rw [ht6]
    intro hy
    rcases subWordSpace_mem _ (by decide) _ _ _ hy with hh | hh | hh
    · exact b5 hh
    · exact absurd hh (by decide)
    · exact absurd hh (by decide)
  have m7 : rupeeChar ∉ t7 := by
    rw [ht7]
    intro hy
    rcases subWordSpace_mem _ (by decide) _ _ _ hy with hh | hh | hh
    · exact m6 hh
    · exact absurd hh (by decide)
    · exact absurd hh (by decide)
  have b7 : backtickChar ∉ t7 := by
    rw [ht7]
    intro hy
    rcases subWordSpace_mem _ (by decide) _ _ _ hy with hh | hh | hh
    · exact b6 hh
    · exact absurd hh (by decide)
    · exact absurd hh (by decide)
  have mO : rupeeChar ∉ collapseWs t7 := by
    intro hy
    rcases collapseWs_mem _ _ hy with hh | hh
    · exact m7 hh
    · exact absurd hh (by decide)
  have bO : backtickChar ∉ collapseWs t7 := by
    intro hy
    rcases collapseWs_mem _ _ hy with hh | hh
    · exact b7 hh
    · exact absurd hh (by decide)
  exact ⟨mO, bO, hORs, hOrd⟩

/-- A text already satisfying all the invariants of the normalizer's output
is a fixed point of `_normalize_currency`: every one of the seven
substitution steps leaves it unchanged. -/
theorem normalize_fix {s : List Char}
    (h1 : rupeeChar ∉ s) (h2 : backtickChar ∉ s)
    (h3 : hasSub "Rs.".data s = false) (h4 : rThenDigit s = false)
    (h5 : wsOk s = true) : normalize_currency s = s := by
  have e1 : replaceStr [rupeeChar] " CURR ".data s = s := by
    simp only [replaceStr]
    exact replaceAll_id _ _ _ (hasSub_singleton_false h1)
  have e2 : replaceStr [backtickChar] " CURR ".data s = s := by
    simp only [replaceStr]
    exact replaceAll_id _ _ _ (hasSub_singleton_false h2)
  have e3 : replaceStr "Rs.".data " CURR ".data s = s := by
    simp only [replaceStr]
    exact replaceAll_id _ _ _ h3
  have e4 : removeInRs s.length s = s := removeInRs_id _ _ h3
  have e5 : subRCurr s.length s = s := subRCurr_id _ _ h4
  have e6 : subWordSpace "Dr".data s.length s = s :=
    subWordSpace_id _ (by decide) _ _ h5
  have e7 : subWordSpace "Cr".data s.length s = s :=
    subWordSpace_id _ (by decide) _ _ h5
  have e8 : collapseWs s = s := collapseWs_id s h5
  simp only [normalize_currency]
  rw [e1, e2, e3, e4, e5, e6, e7, e8]

/-- C8: the currency normalizer is idempotent — for every input string,
applying `_normalize_currency` to its own output yields that output
unchanged.  The output never contains the rupee sign, the backtick glyph
or the substring `Rs.`, has no `r`/`R` immediately followed by a digit or
comma, and has fully collapsed whitespace, so all seven substitution steps
are no-ops on a second pass. -/
theorem normalize_idempotent (t : List Char) :
    normalize_currency (normalize_currency t) = normalize_currency t := by
  obtain ⟨m, b, hRs, hrd⟩ := norm_inv_all t
  exact normalize_fix m b hRs hrd (norm_wsOk t)

end CCParser
